import Mathlib

/-!
Auto-dismissing alerts (AOA Library System)

A shallow embedding of the two client-side scripts

* `app/static/js/main.js`  (inline-style fade, removal after 500 ms) and
* `static/js/alerts.js`     (class-toggle fade, removal after 300 ms)

together with the part of the host they call: the page tree
(`querySelectorAll`, `style`, `classList.add`, `remove`) and the timer
table (`setTimeout`).  The page is a forest of elements in
first-child / next-sibling form; an element handle captured by a closure is
the element's `id`.  A timer callback is the closure of the script,
defunctionalised as `Callback` and interpreted by `runCallback`.
-/

namespace AOA

/-! ## Page tree -/

/-- Inline style of an element: the two properties `main.js` assigns. -/
structure Style where
  transition : String
  opacity : String
deriving DecidableEq

/-- An element of the page: its identity, its class tokens and its inline style. -/
structure Element where
  id : Nat
  classList : List String
  style : Style
deriving DecidableEq

/-- A list of sibling subtrees: `node el children next` is the element `el`
with its children, followed by its later siblings `next`. -/
inductive Forest where
  | nil : Forest
  | node (el : Element) (children : Forest) (next : Forest) : Forest
deriving DecidableEq

namespace Forest

/-- Identities of the elements in the page, in document order. -/
def ids : Forest → List Nat
  | nil => []
  | node el ch nx => el.id :: (ids ch ++ ids nx)

/-- The elements of the page, in document order. -/
def elems : Forest → List Element
  | nil => []
  | node el ch nx => el :: (elems ch ++ elems nx)

/-- The element with identity `e`, when it is in the page. -/
def find? (e : Nat) : Forest → Option Element
  | nil => none
  | node el ch nx =>
    if el.id = e then some el
    else match find? e ch with
      | some x => some x
      | none => find? e nx

/-- Apply a mutation to the element `e` (no effect when `e` is not in the page). -/
def update (e : Nat) (f : Element → Element) : Forest → Forest
  | nil => nil
  | node el ch nx =>
    node (if el.id = e then f el else el) (update e f ch) (update e f nx)

/-- Detach the element `e`, with its subtree, from the page: `e.remove()`
(no effect when `e` is not in the page). -/
def remove (e : Nat) : Forest → Forest
  | nil => nil
  | node el ch nx =>
    if el.id = e then remove e nx else node el (remove e ch) (remove e nx)

end Forest

/-- Handles of the elements carrying class token `cls`, in document order:
`document.querySelectorAll('.' + cls)`. -/
def querySelectorAll (cls : String) : Forest → List Nat
  | .nil => []
  | .node el ch nx =>
    (if cls ∈ el.classList then [el.id] else [])
      ++ (querySelectorAll cls ch ++ querySelectorAll cls nx)

/-- Assignment `el.style.transition = v`. -/
def Element.setTransition (v : String) (el : Element) : Element :=
  { el with style := { el.style with transition := v } }

/-- Assignment `el.style.opacity = v`. -/
def Element.setOpacity (v : String) (el : Element) : Element :=
  { el with style := { el.style with opacity := v } }

/-- Call `el.classList.add(c)`: the token is appended unless already present. -/
def Element.classListAdd (c : String) (el : Element) : Element :=
  if c ∈ el.classList then el else { el with classList := el.classList ++ [c] }

/-! ## The two scripts -/

/-- How the fade is applied. -/
inductive Technique where
  | inlineStyle
  | classToggle
deriving DecidableEq

/-- What distinguishes the two scripts: the line logged at load (if any),
the fade technique and the delay of the inner timer. -/
structure Script where
  banner : Option String
  technique : Technique
  fadeMs : Nat
deriving DecidableEq

/-- Script `app/static/js/main.js`. -/
def main_js : Script :=
  { banner := some "AOA Library Management System loaded"
    technique := .inlineStyle
    fadeMs := 500 }

/-- Script `static/js/alerts.js`. -/
def alerts_js : Script :=
  { banner := none
    technique := .classToggle
    fadeMs := 300 }

/-- Delay of the outer timer, the same literal in both scripts. -/
def firstDelay : Nat := 5000

/-- The two closures handed to `setTimeout`, each capturing one element handle. -/
inductive Callback where
  | fade (e : Nat)
  | remove (e : Nat)
deriving DecidableEq

/-- Handle of the element a callback captured. -/
def Callback.target : Callback → Nat
  | fade e => e
  | remove e => e

/-- A pending timer: its handle, the time it becomes due and its callback. -/
structure Timer where
  id : Nat
  due : Nat
  cb : Callback
deriving DecidableEq

/-- The host as far as the scripts see it.  `timers` are the pending timers in
creation order, `fired` the callbacks already run (latest first, each with the
time it ran), `queries` the number of selector queries performed. -/
structure State where
  now : Nat
  page : Forest
  timers : List Timer
  nextId : Nat
  fired : List (Nat × Timer)
  console : List String
  queries : Nat
deriving DecidableEq

/-- Call `setTimeout(cb, delay)`. -/
def setTimeout (cb : Callback) (delay : Nat) (s : State) : State :=
  { s with
    timers := s.timers ++ [{ id := s.nextId, due := s.now + delay, cb := cb }]
    nextId := s.nextId + 1 }

/-- The mutation that starts the fade. -/
def fadeElement : Technique → Element → Element
  | .inlineStyle, el => (el.setTransition "opacity 0.5s").setOpacity "0"
  | .classToggle, el => el.classListAdd "fade-out"

/-- Body of a timer callback. -/
def runCallback (σ : Script) : Callback → State → State
  | .fade e, s =>
    setTimeout (.remove e) σ.fadeMs
      { s with page := s.page.update e (fadeElement σ.technique) }
  | .remove e, s => { s with page := s.page.remove e }

/-- Call `console.log(m)` when the script has a banner. -/
def logBanner (σ : Script) (s : State) : State :=
  match σ.banner with
  | some m => { s with console := s.console ++ [m] }
  | none => s

/-- The `DOMContentLoaded` handler. -/
def onDOMContentLoaded (σ : Script) (s : State) : State :=
  let s1 := logBanner σ s
  let alerts := querySelectorAll "alert" s1.page
  alerts.foldl (fun st e => setTimeout (.fade e) firstDelay st)
    { s1 with queries := s1.queries + 1 }

/-- The host at the moment the page has been parsed. -/
def pageReady (doc : Forest) : State :=
  { now := 0, page := doc, timers := [], nextId := 1, fired := [], console := [], queries := 0 }

/-- The host right after the handler has run at `t = 0`. -/
def load (σ : Script) (doc : Forest) : State :=
  onDOMContentLoaded σ (pageReady doc)

/-! ## Event loop -/

/-- What can happen after the handler: time passes, a due timer fires, or
unrelated code changes the page. -/
inductive Event where
  | elapse (dt : Nat)
  | fire (tm : Timer)
  | other (page : Forest)
deriving DecidableEq

/-- Events of the script and the clock alone. -/
def Event.isOwn : Event → Bool
  | other _ => false
  | _ => true

/-- The timer `tm` fires: it leaves the table, is recorded, and its callback runs. -/
def fireTimer (σ : Script) (tm : Timer) (s : State) : State :=
  runCallback σ tm.cb
    { s with timers := s.timers.erase tm, fired := (s.now, tm) :: s.fired }

/-- One event; a timer that is not pending or not yet due cannot fire. -/
def step (σ : Script) : Event → State → Option State
  | .elapse dt, s => some { s with now := s.now + dt }
  | .fire tm, s =>
    if tm ∈ s.timers ∧ tm.due ≤ s.now then some (fireTimer σ tm s) else none
  | .other p, s => some { s with page := p }

/-- A sequence of events. -/
def run (σ : Script) : List Event → State → Option State
  | [], s => some s
  | ev :: evs, s => (step σ ev s).bind (run σ evs)

/-- The pending timer that fires next when timers are punctual: the earliest
due, the earliest created among equals. -/
def nextTimer : List Timer → Option Timer
  | [] => none
  | tm :: rest =>
    match nextTimer rest with
    | some tm' => if tm'.due < tm.due then some tm' else some tm
    | none => some tm

/-- Punctual run up to time `t`, at most `fuel` callbacks. -/
def settle (σ : Script) : Nat → Nat → State → State
  | 0, t, s => { s with now := max s.now t }
  | fuel + 1, t, s =>
    match nextTimer s.timers with
    | some tm =>
      if tm.due ≤ t then
        settle σ fuel t (fireTimer σ tm { s with now := max s.now tm.due })
      else { s with now := max s.now t }
    | none => { s with now := max s.now t }

/-- Number of callbacks still to run: a fade callback creates one more timer. -/
def Callback.weight : Callback → Nat
  | fade _ => 2
  | remove _ => 1

/-- Callbacks still to run for a timer table. -/
def pendingWork : List Timer → Nat
  | [] => 0
  | tm :: rest => tm.cb.weight + pendingWork rest

/-- Punctual run up to time `t`: every timer fires at the time it is due. -/
def runUntil (σ : Script) (t : Nat) (s : State) : State :=
  settle σ (pendingWork s.timers) t s

/-- Fire the listed timers in turn, each at the time it is due (or at once
when that time has passed). -/
def fireAll (σ : Script) (tms : List Timer) (s : State) : State :=
  tms.foldl (fun st tm => fireTimer σ tm { st with now := max st.now tm.due }) s

/-- Every pending timer fires once, in creation order. -/
def sweep (σ : Script) (s : State) : State :=
  fireAll σ s.timers s

/-- Timers created by consecutive `setTimeout` calls with the same delay, one per
handle of the list, the first with timer handle `start`. -/
def mkTimers (cb : Nat → Callback) (due : Nat) : Nat → List Nat → List Timer
  | _, [] => []
  | start, e :: es => { id := start, due := due, cb := cb e } :: mkTimers cb due (start + 1) es

/-- Effect of a callback on the page. -/
def Callback.onPage (k : Technique) : Callback → Forest → Forest
  | fade e, p => p.update e (fadeElement k)
  | remove e, p => p.remove e

/-- Timers a callback creates when it runs at time `now` with `nextId` the next
free timer handle. -/
def Callback.spawn (d now nextId : Nat) : Callback → List Timer
  | fade e => [{ id := nextId, due := now + d, cb := remove e }]
  | remove _ => []

/-- Console after the handler. -/
def bannerLines (σ : Script) : List String :=
  match σ.banner with
  | some m => [m]
  | none => []

/-! ## Observations -/

/-- The three states of an alert. -/
inductive Phase where
  | visible
  | fading
  | removed
deriving DecidableEq

/-- Order `visible < fading < removed`. -/
def Phase.rank : Phase → Nat
  | visible => 0
  | fading => 1
  | removed => 2

/-- Whether callback `cb` has run. -/
def hasFired (cb : Callback) (s : State) : Bool :=
  s.fired.any (fun p => p.2.cb == cb)

/-- State of the dismissal of `e`: which of its two callbacks have run. -/
def phase (e : Nat) (s : State) : Phase :=
  if hasFired (.remove e) s then .removed
  else if hasFired (.fade e) s then .fading
  else .visible

/-- Whether an element carries the fade of the given technique. -/
def isFaded : Technique → Element → Bool
  | .inlineStyle, el => el.style.opacity == "0" && el.style.transition == "opacity 0.5s"
  | .classToggle, el => decide ("fade-out" ∈ el.classList)

/-- State of `e` as seen in the page: absent, carrying the fade, or neither. -/
def observe (k : Technique) (e : Nat) (p : Forest) : Phase :=
  match p.find? e with
  | none => .removed
  | some el => if isFaded k el then .fading else .visible

/-- Fade callbacks whose element satisfies `P`. -/
def Callback.isFadeOf (P : Nat → Bool) : Callback → Bool
  | fade e => P e
  | remove _ => false

/-- Removal callbacks whose element satisfies `P`. -/
def Callback.isRemoveOf (P : Nat → Bool) : Callback → Bool
  | fade _ => false
  | remove e => P e

/-- In a history (latest first), every removal callback comes after the fade
callback of the same element, at least `d` ms later. -/
def Ordered (d : Nat) : List (Nat × Timer) → Prop
  | [] => True
  | p :: older =>
    (∀ e, p.2.cb = .remove e → ∃ q ∈ older, q.2.cb = .fade e ∧ q.1 + d ≤ p.1)
      ∧ Ordered d older

/-- Timing facts kept by every event, foreign page changes included; `S` is the
list of handles the handler matched. -/
structure TimeInv (σ : Script) (S : List Nat) (s : State) : Prop where
  target_pending : ∀ tm ∈ s.timers, tm.cb.target ∈ S
  target_fired : ∀ p ∈ s.fired, p.2.cb.target ∈ S
  fade_due : ∀ tm ∈ s.timers, ∀ e, tm.cb = .fade e → tm.due = firstDelay
  remove_due : ∀ tm ∈ s.timers, ∀ e, tm.cb = .remove e →
    ∃ q ∈ s.fired, q.2.cb = .fade e ∧ q.1 + σ.fadeMs = tm.due
  fired_time : ∀ p ∈ s.fired, p.1 ≤ s.now ∧ p.2.due ≤ p.1 ∧ firstDelay ≤ p.1 ∧
    ∀ e, p.2.cb = .remove e → firstDelay + σ.fadeMs ≤ p.1
  ordered : Ordered σ.fadeMs s.fired
  fresh : s.fired = [] →
    s.timers = mkTimers Callback.fade firstDelay 1 S ∧ s.nextId = 1 + S.length
  queries : s.queries = 1
  console : s.console = bannerLines σ

/-- Counting facts kept by every event, foreign page changes included. -/
structure CountInv (S : List Nat) (s : State) : Prop where
  created : s.nextId = 1 + s.timers.length + s.fired.length
  id_bound : ∀ x ∈ s.timers.map Timer.id ++ s.fired.map (fun p => p.2.id), x < s.nextId
  id_nodup : (s.timers.map Timer.id ++ s.fired.map (fun p => p.2.id)).Nodup
  count_fade : ∀ P : Nat → Bool,
    (s.timers.map Timer.cb).countP (Callback.isFadeOf P)
      + (s.fired.map (fun p => p.2.cb)).countP (Callback.isFadeOf P) = S.countP P
  count_remove : ∀ P : Nat → Bool,
    (s.timers.map Timer.cb).countP (Callback.isRemoveOf P)
      + (s.fired.map (fun p => p.2.cb)).countP (Callback.isRemoveOf P)
      = (s.fired.map (fun p => p.2.cb)).countP (Callback.isFadeOf P)

/-- Apply the removal step for each handle of a list. -/
def removeAll (es : List Nat) (p : Forest) : Forest :=
  es.foldl (fun q e => q.remove e) p

/-- Apply the fade for each handle of a list. -/
def fadeAll (k : Technique) (es : List Nat) (p : Forest) : Forest :=
  es.foldl (fun q e => q.update e (fadeElement k)) p

/-- Facts about the shape of the page kept by the script's own events (no
foreign page change). -/
structure PageInv (doc : Forest) (s : State) : Prop where
  outside : removeAll (querySelectorAll "alert" doc) s.page
    = removeAll (querySelectorAll "alert" doc) doc
  sublist : List.Sublist s.page.ids doc.ids
  unfired : s.fired = [] → s.page = doc
  unremoved : (∀ p ∈ s.fired, ∀ e, p.2.cb ≠ .remove e) → s.page.ids = doc.ids
  gone : ∀ x, hasFired (.remove x) s = true → x ∉ s.page.ids

/-- Facts about the elements of the page kept by the script's own events, for a
page whose element identities are distinct. -/
structure AttrInv (σ : Script) (doc : Forest) (s : State) : Prop where
  kept : ∀ x el, hasFired (.fade x) s = false → s.page.find? x = some el →
    doc.find? x = some el
  faded : ∀ x el, hasFired (.fade x) s = true → s.page.find? x = some el →
    isFaded σ.technique el = true

/-- With timers firing when due, the runs of two scripts on the same page show the
same at time `t`: the same elements are in the page, and every element is in the
same observed state, each run read through the fade technique of its script. -/
def agreeAt (σ₁ σ₂ : Script) (doc : Forest) (t : Nat) : Prop :=
  (runUntil σ₁ t (load σ₁ doc)).page.ids = (runUntil σ₂ t (load σ₂ doc)).page.ids ∧
  ∀ x, observe σ₁.technique x (runUntil σ₁ t (load σ₁ doc)).page
    = observe σ₂.technique x (runUntil σ₂ t (load σ₂ doc)).page

/-! ## Sample pages -/

/-- An element with no inline style. -/
def plain (id : Nat) (classes : List String) : Element :=
  { id := id, classList := classes, style := { transition := "", opacity := "" } }

/-- Two alerts `1` and `2`, no other element. -/
def twoAlerts : Forest :=
  .node (plain 1 ["alert", "alert-success"]) .nil
    (.node (plain 2 ["alert"]) .nil .nil)

/-- An alert `1` holding a close button `2`, followed by a paragraph `3`. -/
def alertWithButton : Forest :=
  .node (plain 1 ["alert"]) (.node (plain 2 ["btn-close"]) .nil .nil)
    (.node (plain 3 ["lead"]) .nil .nil)

/-- The page `twoAlerts` after foreign code appended a third alert `9`. -/
def lateAlert : Forest :=
  .node (plain 1 ["alert", "alert-success"]) .nil
    (.node (plain 2 ["alert"]) .nil
      (.node (plain 9 ["alert"]) .nil .nil))

/-- The page `twoAlerts` after foreign code inserted an element `9` inside the
alert `1`. -/
def nestedLate : Forest :=
  .node (plain 1 ["alert", "alert-success"]) (.node (plain 9 ["alert"]) .nil .nil)
    (.node (plain 2 ["alert"]) .nil .nil)

/-- A page with no alert: a single paragraph carrying the class `fade-out`. -/
def fadedParagraph : Forest :=
  .node (plain 7 ["fade-out"]) .nil .nil

/-! ## Page tree lemmas -/

theorem fadeElement_id (k : Technique) (el : Element) : (fadeElement k el).id = el.id := by
  cases k
  · rfl
  · simp only [fadeElement, Element.classListAdd]
    split <;> rfl

theorem isFaded_fadeElement (k : Technique) (el : Element) :
    isFaded k (fadeElement k el) = true := by
  cases k
  · simp [isFaded, fadeElement, Element.setTransition, Element.setOpacity]
  · simp only [fadeElement, Element.classListAdd, isFaded]
    split
    · simpa using ‹_›
    · simp

namespace Forest

theorem remove_node_eq (e : Nat) (el : Element) (ch nx : Forest) (h : el.id = e) :
    (node el ch nx).remove e = nx.remove e := by
  simp only [remove, if_pos h]

theorem remove_node_ne (e : Nat) (el : Element) (ch nx : Forest) (h : ¬ el.id = e) :
    (node el ch nx).remove e = node el (ch.remove e) (nx.remove e) := by
  simp only [remove, if_neg h]

theorem ids_update (e : Nat) (f : Element → Element) (hf : ∀ el, (f el).id = el.id)
    (p : Forest) : (p.update e f).ids = p.ids := by
  induction p with
  | nil => rfl
  | node el ch nx ihc ihn =>
    simp only [update, ids, ihc, ihn]
    split <;> simp [hf]

theorem update_of_not_mem (e : Nat) (f : Element → Element) (p : Forest)
    (h : e ∉ p.ids) : p.update e f = p := by
  induction p with
  | nil => rfl
  | node el ch nx ihc ihn =>
    simp only [ids, List.mem_cons, List.mem_append, not_or] at h
    simp only [update, ihc h.2.1, ihn h.2.2]
    rw [if_neg (fun hh => h.1 hh.symm)]

theorem remove_of_not_mem (e : Nat) (p : Forest) (h : e ∉ p.ids) : p.remove e = p := by
  induction p with
  | nil => rfl
  | node el ch nx ihc ihn =>
    simp only [ids, List.mem_cons, List.mem_append, not_or] at h
    simp only [remove, ihc h.2.1, ihn h.2.2]
    rw [if_neg (fun hh => h.1 hh.symm)]

theorem ids_remove_sublist (e : Nat) (p : Forest) : List.Sublist (p.remove e).ids p.ids := by
  induction p with
  | nil => exact List.Sublist.refl _
  | node el ch nx ihc ihn =>
    simp only [remove]
    split
    · simp only [ids]
      exact List.Sublist.cons _ (ihn.trans (List.sublist_append_right _ _))
    · simp only [ids]
      exact List.Sublist.cons₂ _ (List.Sublist.append ihc ihn)

theorem not_mem_ids_remove (e : Nat) (p : Forest) : e ∉ (p.remove e).ids := by
  induction p with
  | nil => simp [remove, ids]
  | node el ch nx ihc ihn =>
    simp only [remove]
    split
    · exact ihn
    · rename_i hne
      simp only [ids, List.mem_cons, List.mem_append, not_or]
      exact ⟨fun hh => hne hh.symm, ihc, ihn⟩

theorem remove_remove_self (e : Nat) (p : Forest) : (p.remove e).remove e = p.remove e :=
  remove_of_not_mem e _ (not_mem_ids_remove e p)

theorem remove_comm (a b : Nat) (p : Forest) :
    (p.remove a).remove b = (p.remove b).remove a := by
  induction p with
  | nil => rfl
  | node el ch nx ihc ihn =>
    by_cases ha : el.id = a <;> by_cases hb : el.id = b
    · rw [remove_node_eq a _ _ _ ha, remove_node_eq b _ _ _ hb, ihn]
    · rw [remove_node_eq a _ _ _ ha, remove_node_ne b _ _ _ hb, remove_node_eq a _ _ _ ha, ihn]
    · rw [remove_node_ne a _ _ _ ha, remove_node_eq b _ _ _ hb, remove_node_eq b _ _ _ hb, ihn]
    · simp only [remove_node_ne a _ _ _ ha, remove_node_ne b _ _ _ hb, ihc, ihn]

theorem remove_update (a e : Nat) (f : Element → Element) (hf : ∀ el, (f el).id = el.id)
    (p : Forest) : (p.update e f).remove a = (p.remove a).update e f := by
  induction p with
  | nil => rfl
  | node el ch nx ihc ihn =>
    have hid : (if el.id = e then f el else el).id = el.id := by
      split
      · exact hf el
      · rfl
    by_cases ha : el.id = a
    · rw [remove_node_eq a _ _ _ ha, update, remove_node_eq a _ _ _ (hid.trans ha), ihn]
    · rw [remove_node_ne a _ _ _ ha, update, remove_node_ne a _ _ _ (fun hh => ha (hid.symm.trans hh)),
        update, ihc, ihn]

theorem remove_update_self (e : Nat) (f : Element → Element) (hf : ∀ el, (f el).id = el.id)
    (p : Forest) : (p.update e f).remove e = p.remove e := by
  rw [remove_update e e f hf, update_of_not_mem e f _ (not_mem_ids_remove e p)]

theorem find?_eq_none_iff (e : Nat) (p : Forest) : p.find? e = none ↔ e ∉ p.ids := by
  induction p with
  | nil => simp [find?, ids]
  | node el ch nx ihc ihn =>
    simp only [find?, ids, List.mem_cons, List.mem_append, not_or]
    by_cases h : el.id = e
    · simp [h]
    · rw [if_neg h]
      cases hc : find? e ch with
      | some x =>
        have : ¬ (e ∉ ch.ids) := fun hh => by rw [← ihc] at hh; simp [hc] at hh
        simp [this]
      | none =>
        have h1 : e ∉ ch.ids := ihc.mp hc
        simp only [ihn]
        exact ⟨fun hh => ⟨fun h2 => h h2.symm, h1, hh⟩, fun hh => hh.2.2⟩

theorem find?_id (e : Nat) (p : Forest) (el : Element) (h : p.find? e = some el) :
    el.id = e := by
  induction p with
  | nil => simp [find?] at h
  | node el' ch nx ihc ihn =>
    simp only [find?] at h
    by_cases h' : el'.id = e
    · rw [if_pos h'] at h
      cases h
      exact h'
    · rw [if_neg h'] at h
      cases hc : find? e ch with
      | some x =>
        simp only [hc] at h
        exact ihc (by rw [hc, h])
      | none =>
        simp only [hc] at h
        exact ihn h

theorem find?_update (x e : Nat) (f : Element → Element) (hf : ∀ el, (f el).id = el.id)
    (p : Forest) :
    (p.update e f).find? x = (p.find? x).map (fun el => if x = e then f el else el) := by
  induction p with
  | nil => rfl
  | node el ch nx ihc ihn =>
    simp only [update, find?]
    have hid : (if el.id = e then f el else el).id = el.id := by
      split
      · exact hf el
      · rfl
    by_cases hx : el.id = x
    · rw [if_pos hx, if_pos (hid.trans hx)]
      subst hx
      rfl
    · rw [if_neg hx, if_neg (fun hh => hx (hid.symm.trans hh)), ihc, ihn]
      cases find? x ch <;> rfl

theorem find?_remove (x e : Nat) (p : Forest) (hnd : p.ids.Nodup)
    (hx : x ∈ (p.remove e).ids) : (p.remove e).find? x = p.find? x := by
  induction p with
  | nil => rfl
  | node el ch nx ihc ihn =>
    simp only [ids, List.nodup_cons, List.mem_append, not_or, List.nodup_append] at hnd
    obtain ⟨⟨h1, h2⟩, hc, hn, hdis⟩ := hnd
    simp only [remove] at hx ⊢
    by_cases he : el.id = e
    · rw [if_pos he] at hx ⊢
      have hxn : x ∈ nx.ids := (ids_remove_sublist e nx).subset hx
      have hne : ¬ el.id = x := fun hh => h2 (hh ▸ hxn)
      have hxc : x ∉ ch.ids := fun hh => hdis hh hxn
      simp only [find?, if_neg hne, (find?_eq_none_iff x ch).mpr hxc]
      exact ihn hn hx
    · rw [if_neg he] at hx ⊢
      simp only [find?]
      by_cases hxx : el.id = x
      · simp [hxx]
      · rw [if_neg hxx, if_neg hxx]
        simp only [ids, List.mem_cons, List.mem_append] at hx
        rcases hx with hx | hx | hx
        · exact absurd hx.symm hxx
        · rw [ihc hc hx]
          have hsome : find? x ch ≠ none := fun hh =>
            (find?_eq_none_iff x ch).mp hh ((ids_remove_sublist e ch).subset hx)
          cases hf : find? x ch with
          | none => exact absurd hf hsome
          | some y => rfl
        · have hxc : x ∉ ch.ids := fun hh => hdis hh ((ids_remove_sublist e nx).subset hx)
          have hxc' : x ∉ (ch.remove e).ids := fun hh => hxc ((ids_remove_sublist e ch).subset hh)
          rw [(find?_eq_none_iff x ch).mpr hxc, (find?_eq_none_iff x _).mpr hxc']
          exact ihn hn hx

end Forest

theorem querySelectorAll_subset (cls : String) (p : Forest) :
    ∀ e ∈ querySelectorAll cls p, e ∈ p.ids := by
  induction p with
  | nil => simp [querySelectorAll]
  | node el ch nx ihc ihn =>
    intro e he
    simp only [querySelectorAll, List.mem_append] at he
    simp only [Forest.ids, List.mem_cons, List.mem_append]
    rcases he with he | he | he
    · left
      split at he <;> simp_all
    · exact Or.inr (Or.inl (ihc e he))
    · exact Or.inr (Or.inr (ihn e he))

theorem querySelectorAll_sublist (cls : String) (p : Forest) :
    List.Sublist (querySelectorAll cls p) p.ids := by
  induction p with
  | nil => exact List.Sublist.refl _
  | node el ch nx ihc ihn =>
    simp only [querySelectorAll, Forest.ids]
    by_cases h : cls ∈ el.classList
    · rw [if_pos h, List.singleton_append]
      exact List.Sublist.cons₂ _ (List.Sublist.append ihc ihn)
    · rw [if_neg h, List.nil_append]
      exact List.Sublist.cons _ (List.Sublist.append ihc ihn)

/-! ## Timer callbacks -/

theorem fireTimer_eq (σ : Script) (tm : Timer) (s : State) :
    fireTimer σ tm s =
      { now := s.now
        page := tm.cb.onPage σ.technique s.page
        timers := s.timers.erase tm ++ tm.cb.spawn σ.fadeMs s.now s.nextId
        nextId := s.nextId + (tm.cb.spawn σ.fadeMs s.now s.nextId).length
        fired := (s.now, tm) :: s.fired
        console := s.console
        queries := s.queries } := by
  rcases tm with ⟨id, due, cb⟩
  cases cb <;> simp [fireTimer, runCallback, setTimeout, Callback.onPage, Callback.spawn]

theorem spawn_due (d now nextId : Nat) (cb : Callback) :
    ∀ x ∈ cb.spawn d now nextId, x.due = now + d ∧ x.id = nextId ∧
      ∃ e, cb = .fade e ∧ x.cb = .remove e := by
  intro x hx
  cases cb with
  | fade e =>
    simp only [Callback.spawn, List.mem_singleton] at hx
    subst hx
    exact ⟨rfl, rfl, e, rfl, rfl⟩
  | remove e => simp [Callback.spawn] at hx

theorem step_elapse (σ : Script) (dt : Nat) (s : State) :
    step σ (.elapse dt) s = some { s with now := s.now + dt } := rfl

theorem step_other (σ : Script) (p : Forest) (s : State) :
    step σ (.other p) s = some { s with page := p } := rfl

theorem step_fire (σ : Script) (tm : Timer) (s s' : State)
    (h : step σ (.fire tm) s = some s') :
    tm ∈ s.timers ∧ tm.due ≤ s.now ∧ s' = fireTimer σ tm s := by
  simp only [step] at h
  split at h
  · rename_i hc
    exact ⟨hc.1, hc.2, (Option.some.inj h).symm⟩
  · cases h

/-- Invariance principle for executions that may contain foreign page changes. -/
theorem run_invariant (σ : Script) (P : State → Prop)
    (h_elapse : ∀ s dt, P s → P { s with now := s.now + dt })
    (h_fire : ∀ s tm, P s → tm ∈ s.timers → tm.due ≤ s.now → P (fireTimer σ tm s))
    (h_other : ∀ s p, P s → P { s with page := p }) :
    ∀ (evs : List Event) (s s' : State), P s → run σ evs s = some s' → P s' := by
  intro evs
  induction evs with
  | nil =>
    intro s s' hs h
    simp only [run] at h
    cases h
    exact hs
  | cons ev evs ih =>
    intro s s' hs h
    simp only [run] at h
    cases hst : step σ ev s with
    | none => simp [hst] at h
    | some s1 =>
      rw [hst] at h
      simp only [Option.bind] at h
      refine ih s1 s' ?_ h
      cases ev with
      | elapse dt =>
        rw [step_elapse] at hst
        cases hst
        exact h_elapse s dt hs
      | fire tm =>
        obtain ⟨h1, h2, h3⟩ := step_fire σ tm s s1 hst
        rw [h3]
        exact h_fire s tm hs h1 h2
      | other p =>
        rw [step_other] at hst
        cases hst
        exact h_other s p hs

/-- Invariance principle for executions of the script and the clock alone. -/
theorem run_invariant_own (σ : Script) (P : State → Prop)
    (h_elapse : ∀ s dt, P s → P { s with now := s.now + dt })
    (h_fire : ∀ s tm, P s → tm ∈ s.timers → tm.due ≤ s.now → P (fireTimer σ tm s)) :
    ∀ (evs : List Event) (s s' : State), (∀ ev ∈ evs, ev.isOwn = true) → P s →
      run σ evs s = some s' → P s' := by
  intro evs
  induction evs with
  | nil =>
    intro s s' _ hs h
    simp only [run] at h
    cases h
    exact hs
  | cons ev evs ih =>
    intro s s' hown hs h
    simp only [run] at h
    cases hst : step σ ev s with
    | none => simp [hst] at h
    | some s1 =>
      rw [hst] at h
      simp only [Option.bind] at h
      refine ih s1 s' (fun e he => hown e (List.mem_cons_of_mem _ he)) ?_ h
      cases ev with
      | elapse dt =>
        rw [step_elapse] at hst
        cases hst
        exact h_elapse s dt hs
      | fire tm =>
        obtain ⟨h1, h2, h3⟩ := step_fire σ tm s s1 hst
        rw [h3]
        exact h_fire s tm hs h1 h2
      | other p =>
        have := hown (.other p) (List.mem_cons_self _ _)
        simp [Event.isOwn] at this

theorem run_append (σ : Script) (evs₁ evs₂ : List Event) (s s1 : State)
    (h : run σ evs₁ s = some s1) : run σ (evs₁ ++ evs₂) s = run σ evs₂ s1 := by
  induction evs₁ generalizing s with
  | nil =>
    simp only [run] at h
    cases h
    rfl
  | cons ev evs ih =>
    simp only [run, List.cons_append] at h ⊢
    cases hst : step σ ev s with
    | none => simp [hst] at h
    | some s2 =>
      rw [hst] at h
      simp only [Option.bind] at h ⊢
      exact ih s2 h

/-! ## The handler -/

theorem mkTimers_map_cb (cb : Nat → Callback) (due start : Nat) (es : List Nat) :
    (mkTimers cb due start es).map Timer.cb = es.map cb := by
  induction es generalizing start with
  | nil => rfl
  | cons e es ih => simp [mkTimers, ih]

theorem mkTimers_length (cb : Nat → Callback) (due start : Nat) (es : List Nat) :
    (mkTimers cb due start es).length = es.length := by
  induction es generalizing start with
  | nil => rfl
  | cons e es ih => simp [mkTimers, ih]

theorem mkTimers_mem (cb : Nat → Callback) (due start : Nat) (es : List Nat) (tm : Timer)
    (h : tm ∈ mkTimers cb due start es) :
    tm.due = due ∧ start ≤ tm.id ∧ tm.id < start + es.length ∧ ∃ e ∈ es, tm.cb = cb e := by
  induction es generalizing start with
  | nil => simp [mkTimers] at h
  | cons e es ih =>
    simp only [mkTimers, List.mem_cons] at h
    rcases h with h | h
    · subst h
      simp
    · obtain ⟨h1, h2, h3, e', he', h4⟩ := ih (start + 1) h
      refine ⟨h1, by omega, by simp only [List.length_cons]; omega, e', List.mem_cons_of_mem _ he', h4⟩

theorem schedule_fold (es : List Nat) (s : State) :
    es.foldl (fun st e => setTimeout (.fade e) firstDelay st) s =
      { s with
        timers := s.timers ++ mkTimers Callback.fade (s.now + firstDelay) s.nextId es
        nextId := s.nextId + es.length } := by
  induction es generalizing s with
  | nil => simp [mkTimers]
  | cons e es ih =>
    rw [List.foldl_cons, ih]
    simp [setTimeout, mkTimers, Nat.add_assoc, Nat.add_comm 1]

theorem load_eq (σ : Script) (doc : Forest) :
    load σ doc =
      { now := 0
        page := doc
        timers := mkTimers Callback.fade firstDelay 1 (querySelectorAll "alert" doc)
        nextId := 1 + (querySelectorAll "alert" doc).length
        fired := []
        console := bannerLines σ
        queries := 1 } := by
  unfold load onDOMContentLoaded
  have hp : (logBanner σ (pageReady doc)).page = doc := by
    unfold logBanner
    cases σ.banner <;> rfl
  simp only [hp, schedule_fold]
  unfold logBanner bannerLines pageReady
  cases σ.banner <;> simp

/-! ## Invariants of every execution -/

theorem timeInv_load (σ : Script) (doc : Forest) :
    TimeInv σ (querySelectorAll "alert" doc) (load σ doc) := by
  rw [load_eq]
  refine ⟨?_, ?_, ?_, ?_, ?_, ?_, ?_, rfl, rfl⟩
  · intro tm htm
    obtain ⟨_, _, _, e, he, hcb⟩ := mkTimers_mem _ _ _ _ tm htm
    rw [hcb]
    exact he
  · intro p hp
    cases hp
  · intro tm htm e _
    exact (mkTimers_mem _ _ _ _ tm htm).1
  · intro tm htm e he
    obtain ⟨_, _, _, e', _, hcb⟩ := mkTimers_mem _ _ _ _ tm htm
    rw [hcb] at he
    cases he
  · intro p hp
    cases hp
  · trivial
  · intro _
    exact ⟨rfl, rfl⟩

theorem timeInv_elapse (σ : Script) (S : List Nat) (s : State) (dt : Nat)
    (h : TimeInv σ S s) : TimeInv σ S { s with now := s.now + dt } := by
  refine ⟨h.target_pending, h.target_fired, h.fade_due, h.remove_due, ?_, h.ordered,
    h.fresh, h.queries, h.console⟩
  intro p hp
  obtain ⟨h1, h2, h3, h4⟩ := h.fired_time p hp
  exact ⟨Nat.le_trans h1 (Nat.le_add_right _ _), h2, h3, h4⟩

theorem timeInv_other (σ : Script) (S : List Nat) (s : State) (p : Forest)
    (h : TimeInv σ S s) : TimeInv σ S { s with page := p } :=
  ⟨h.target_pending, h.target_fired, h.fade_due, h.remove_due, h.fired_time, h.ordered,
    h.fresh, h.queries, h.console⟩

/-- A pending timer is due no earlier than the first delay; a removal timer no
earlier than first delay plus fade duration. -/
theorem TimeInv.due_ge {σ : Script} {S : List Nat} {s : State} (h : TimeInv σ S s)
    (tm : Timer) (htm : tm ∈ s.timers) :
    firstDelay ≤ tm.due ∧ ∀ e, tm.cb = .remove e → firstDelay + σ.fadeMs ≤ tm.due := by
  cases hcb : tm.cb with
  | fade e =>
    have := h.fade_due tm htm e hcb
    exact ⟨by omega, fun e' he' => by cases he'⟩
  | remove e =>
    obtain ⟨q, hq, _, hq2⟩ := h.remove_due tm htm e hcb
    have := (h.fired_time q hq).2.2.1
    exact ⟨by omega, fun _ _ => by omega⟩

theorem timeInv_fire (σ : Script) (S : List Nat) (s : State) (tm : Timer)
    (h : TimeInv σ S s) (htm : tm ∈ s.timers) (hdue : tm.due ≤ s.now) :
    TimeInv σ S (fireTimer σ tm s) := by
  rw [fireTimer_eq]
  have hge := h.due_ge tm htm
  refine ⟨?_, ?_, ?_, ?_, ?_, ?_, ?_, h.queries, h.console⟩
  · intro x hx
    simp only [List.mem_append] at hx
    rcases hx with hx | hx
    · exact h.target_pending x (List.mem_of_mem_erase hx)
    · obtain ⟨_, _, e, h1, h2⟩ := spawn_due _ _ _ _ x hx
      have := h.target_pending tm htm
      rw [h1] at this
      rw [h2]
      exact this
  · intro p hp
    simp only [List.mem_cons] at hp
    rcases hp with hp | hp
    · subst hp
      exact h.target_pending tm htm
    · exact h.target_fired p hp
  · intro x hx e he
    simp only [List.mem_append] at hx
    rcases hx with hx | hx
    · exact h.fade_due x (List.mem_of_mem_erase hx) e he
    · obtain ⟨_, _, e', _, h2⟩ := spawn_due _ _ _ _ x hx
      rw [h2] at he
      cases he
  · intro x hx e he
    simp only [List.mem_append] at hx
    rcases hx with hx | hx
    · obtain ⟨q, hq, hq1, hq2⟩ := h.remove_due x (List.mem_of_mem_erase hx) e he
      exact ⟨q, List.mem_cons_of_mem _ hq, hq1, hq2⟩
    · obtain ⟨hd, _, e', h1, h2⟩ := spawn_due _ _ _ _ x hx
      rw [h2] at he
      cases he
      exact ⟨(s.now, tm), List.mem_cons_self _ _, h1, hd.symm⟩
  · intro p hp
    simp only [List.mem_cons] at hp
    rcases hp with hp | hp
    · subst hp
      exact ⟨Nat.le_refl _, hdue, Nat.le_trans hge.1 hdue,
        fun e he => Nat.le_trans (hge.2 e he) hdue⟩
    · exact h.fired_time p hp
  · refine ⟨?_, h.ordered⟩
    intro e he
    obtain ⟨q, hq, hq1, hq2⟩ := h.remove_due tm htm e he
    exact ⟨q, hq, hq1, by simp only; omega⟩
  · intro hnil
    cases hnil

/-- Timing facts hold in every state an execution from the loaded page reaches. -/
theorem timeInv_run (σ : Script) (doc : Forest) (evs : List Event) (s : State)
    (h : run σ evs (load σ doc) = some s) :
    TimeInv σ (querySelectorAll "alert" doc) s :=
  run_invariant σ (TimeInv σ (querySelectorAll "alert" doc))
    (fun s dt hs => timeInv_elapse σ _ s dt hs)
    (fun s tm hs h1 h2 => timeInv_fire σ _ s tm hs h1 h2)
    (fun s p hs => timeInv_other σ _ s p hs)
    evs (load σ doc) s (timeInv_load σ doc) h

theorem countP_map_erase {α β : Type} [DecidableEq α] (Q : β → Bool) (f : α → β)
    (l : List α) (a : α) (h : a ∈ l) :
    (l.map f).countP Q = ((l.erase a).map f).countP Q + (if Q (f a) then 1 else 0) := by
  have hp : List.Perm (l.map f) ((a :: l.erase a).map f) := (List.perm_cons_erase h).map f
  rw [hp.countP_eq, List.map_cons, List.countP_cons]

theorem mkTimers_countP_fade (P : Nat → Bool) (due start : Nat) (es : List Nat) :
    ((mkTimers Callback.fade due start es).map Timer.cb).countP (Callback.isFadeOf P)
      = es.countP P := by
  rw [mkTimers_map_cb, List.countP_map]
  rfl

theorem mkTimers_countP_remove (P : Nat → Bool) (due start : Nat) (es : List Nat) :
    ((mkTimers Callback.fade due start es).map Timer.cb).countP (Callback.isRemoveOf P)
      = 0 := by
  rw [mkTimers_map_cb, List.countP_map, List.countP_eq_zero]
  intro e _
  simp [Callback.isRemoveOf]

theorem mkTimers_ids (cb : Nat → Callback) (due start : Nat) (es : List Nat) :
    (mkTimers cb due start es).map Timer.id = List.range' start es.length := by
  induction es generalizing start with
  | nil => rfl
  | cons e es ih => simp [mkTimers, ih, List.range'_succ]

theorem countInv_load (σ : Script) (doc : Forest) :
    CountInv (querySelectorAll "alert" doc) (load σ doc) := by
  rw [load_eq]
  refine ⟨?_, ?_, ?_, ?_, ?_⟩
  · simp [mkTimers_length]
  · intro x hx
    simp only [List.map_nil, List.append_nil, mkTimers_ids, List.mem_range'_1] at hx
    show x < 1 + _
    omega
  · simp only [List.map_nil, List.append_nil, mkTimers_ids]
    exact List.nodup_range' _ _
  · intro P
    simp only [List.map_nil, List.countP_nil, Nat.add_zero]
    exact mkTimers_countP_fade P _ _ _
  · intro P
    simp only [List.map_nil, List.countP_nil, Nat.add_zero]
    exact mkTimers_countP_remove P _ _ _

theorem countInv_fire (σ : Script) (S : List Nat) (s : State) (tm : Timer)
    (h : CountInv S s) (htm : tm ∈ s.timers) :
    CountInv S (fireTimer σ tm s) := by
  rw [fireTimer_eq]
  have hperm : List.Perm (s.timers.map Timer.id ++ s.fired.map (fun p => p.2.id))
      (tm.id :: ((s.timers.erase tm).map Timer.id ++ s.fired.map (fun p => p.2.id))) := by
    have := ((List.perm_cons_erase htm).map Timer.id).append_right (s.fired.map (fun p => p.2.id))
    simpa using this
  have hlen : (s.timers.erase tm).length + 1 = s.timers.length := by
    rw [List.length_erase_of_mem htm]
    have := List.length_pos_of_mem htm
    omega
  have hnd := hperm.nodup_iff.mp h.id_nodup
  have hbd : ∀ x ∈ tm.id :: ((s.timers.erase tm).map Timer.id ++ s.fired.map (fun p => p.2.id)),
      x < s.nextId := fun x hx => h.id_bound x (hperm.mem_iff.mpr hx)
  have hcf := fun P => countP_map_erase (Callback.isFadeOf P) Timer.cb s.timers tm htm
  have hcr := fun P => countP_map_erase (Callback.isRemoveOf P) Timer.cb s.timers tm htm
  cases hcb : tm.cb with
  | fade e =>
    refine ⟨?_, ?_, ?_, ?_, ?_⟩
    · have := h.created
      simp only [Callback.spawn, List.length_append, List.length_cons, List.length_nil]
      omega
    · intro x hx
      simp only [Callback.spawn, List.map_append, List.map_cons, List.map_nil,
        List.append_assoc, List.mem_append, List.mem_cons, List.mem_singleton,
        List.length_cons, List.length_nil, List.singleton_append] at hx ⊢
      have hb := fun y hy => hbd y hy
      simp only [List.mem_cons, List.mem_append] at hb
      rcases hx with hx | hx | hx | hx
      · have := hb x (Or.inr (Or.inl hx)); omega
      · omega
      · have := hb x (Or.inl hx); omega
      · have := hb x (Or.inr (Or.inr hx)); omega
    · have hp2 : List.Perm
          (((s.timers.erase tm) ++ Callback.spawn σ.fadeMs s.now s.nextId (.fade e)).map Timer.id
            ++ ((s.now, tm) :: s.fired).map (fun p => p.2.id))
          (s.nextId :: tm.id :: ((s.timers.erase tm).map Timer.id
            ++ s.fired.map (fun p => p.2.id))) := by
        simp only [Callback.spawn, List.map_append, List.map_cons, List.map_nil,
          List.append_assoc, List.singleton_append]
        refine List.perm_middle.trans (List.Perm.cons _ ?_)
        exact List.perm_middle
      refine hp2.nodup_iff.mpr (List.nodup_cons.mpr ⟨?_, hnd⟩)
      intro hmem
      have := hbd _ hmem
      omega
    · intro P
      have h1 := h.count_fade P
      have h2 := hcf P
      rw [hcb] at h2
      simp only [Callback.spawn, List.map_append, List.map_cons, List.map_nil,
        List.countP_append, List.countP_cons, List.countP_nil, hcb] at h1 h2 ⊢
      simp only [Callback.isFadeOf] at h2 ⊢
      simp only [Bool.false_eq_true, ↓reduceIte] at h2 ⊢
      omega
    · intro P
      have h1 := h.count_remove P
      have h2 := hcr P
      rw [hcb] at h2
      simp only [Callback.spawn, List.map_append, List.map_cons, List.map_nil,
        List.countP_append, List.countP_cons, List.countP_nil, hcb] at h1 h2 ⊢
      simp only [Callback.isFadeOf, Callback.isRemoveOf] at h2 ⊢
      simp only [Bool.false_eq_true, ↓reduceIte] at h2 ⊢
      omega
  | remove e =>
    refine ⟨?_, ?_, ?_, ?_, ?_⟩
    · have := h.created
      simp only [Callback.spawn, List.length_append, List.length_cons, List.length_nil]
      omega
    · intro x hx
      simp only [Callback.spawn, List.map_append, List.map_cons, List.map_nil,
        List.append_nil, List.mem_append, List.mem_cons, List.length_nil] at hx ⊢
      have hb := fun y hy => hbd y hy
      simp only [List.mem_cons, List.mem_append] at hb
      rcases hx with hx | hx | hx
      · have := hb x (Or.inr (Or.inl hx)); omega
      · have := hb x (Or.inl hx); omega
      · have := hb x (Or.inr (Or.inr hx)); omega
    · have hp2 : List.Perm
          (((s.timers.erase tm) ++ Callback.spawn σ.fadeMs s.now s.nextId (.remove e)).map Timer.id
            ++ ((s.now, tm) :: s.fired).map (fun p => p.2.id))
          (tm.id :: ((s.timers.erase tm).map Timer.id
            ++ s.fired.map (fun p => p.2.id))) := by
        simp only [Callback.spawn, List.map_append, List.map_cons, List.map_nil,
          List.append_nil]
        exact List.perm_middle
      exact hp2.nodup_iff.mpr hnd
    · intro P
      have h1 := h.count_fade P
      have h2 := hcf P
      rw [hcb] at h2
      simp only [Callback.spawn, List.map_append, List.map_cons, List.map_nil,
        List.countP_append, List.countP_cons, List.countP_nil, hcb] at h1 h2 ⊢
      simp only [Callback.isFadeOf] at h2 ⊢
      simp only [Bool.false_eq_true, ↓reduceIte] at h2 ⊢
      omega
    · intro P
      have h1 := h.count_remove P
      have h2 := hcr P
      rw [hcb] at h2
      simp only [Callback.spawn, List.map_append, List.map_cons, List.map_nil,
        List.countP_append, List.countP_cons, List.countP_nil, hcb] at h1 h2 ⊢
      simp only [Callback.isFadeOf, Callback.isRemoveOf] at h2 ⊢
      simp only [Bool.false_eq_true, ↓reduceIte] at h2 ⊢
      omega

/-- Counting facts hold in every state an execution from the loaded page reaches. -/
theorem countInv_run (σ : Script) (doc : Forest) (evs : List Event) (s : State)
    (h : run σ evs (load σ doc) = some s) :
    CountInv (querySelectorAll "alert" doc) s :=
  run_invariant σ (CountInv (querySelectorAll "alert" doc))
    (fun _ _ hs => ⟨hs.created, hs.id_bound, hs.id_nodup, hs.count_fade, hs.count_remove⟩)
    (fun s tm hs h1 _ => countInv_fire σ _ s tm hs h1)
    (fun _ _ hs => ⟨hs.created, hs.id_bound, hs.id_nodup, hs.count_fade, hs.count_remove⟩)
    evs (load σ doc) s (countInv_load σ doc) h

/-! ## The page under the script's own events -/

theorem removeAll_cons (e : Nat) (es : List Nat) (p : Forest) :
    removeAll (e :: es) p = removeAll es (p.remove e) := rfl

theorem fadeAll_cons (k : Technique) (e : Nat) (es : List Nat) (p : Forest) :
    fadeAll k (e :: es) p = fadeAll k es (p.update e (fadeElement k)) := rfl

theorem ids_fadeAll (k : Technique) (es : List Nat) (p : Forest) :
    (fadeAll k es p).ids = p.ids := by
  induction es generalizing p with
  | nil => rfl
  | cons e es ih => rw [fadeAll_cons, ih, Forest.ids_update _ _ (fadeElement_id k)]

theorem ids_removeAll_sublist (es : List Nat) (p : Forest) :
    List.Sublist (removeAll es p).ids p.ids := by
  induction es generalizing p with
  | nil => exact List.Sublist.refl _
  | cons e es ih => exact (ih (p.remove e)).trans (Forest.ids_remove_sublist e p)

theorem not_mem_ids_removeAll (es : List Nat) (p : Forest) (e : Nat) (he : e ∈ es) :
    e ∉ (removeAll es p).ids := by
  induction es generalizing p with
  | nil => cases he
  | cons a es ih =>
    rw [removeAll_cons]
    by_cases hin : e ∈ es
    · exact ih (p.remove a) hin
    · have : e = a := by
        rcases List.mem_cons.mp he with h | h
        · exact h
        · exact absurd h hin
      subst this
      exact fun hh => Forest.not_mem_ids_remove e p ((ids_removeAll_sublist es _).subset hh)

theorem removeAll_remove (es : List Nat) (e : Nat) (he : e ∈ es) (p : Forest) :
    removeAll es (p.remove e) = removeAll es p := by
  induction es generalizing p with
  | nil => cases he
  | cons a es ih =>
    rw [removeAll_cons, removeAll_cons]
    by_cases hae : a = e
    · subst hae
      rw [Forest.remove_remove_self]
    · have hin : e ∈ es := by
        rcases List.mem_cons.mp he with h | h
        · exact absurd h.symm hae
        · exact h
      rw [Forest.remove_comm, ih hin]

theorem removeAll_update (es : List Nat) (e : Nat) (he : e ∈ es) (f : Element → Element)
    (hf : ∀ el, (f el).id = el.id) (p : Forest) :
    removeAll es (p.update e f) = removeAll es p := by
  induction es generalizing p with
  | nil => cases he
  | cons a es ih =>
    rw [removeAll_cons, removeAll_cons]
    by_cases hae : a = e
    · subst hae
      rw [Forest.remove_update_self _ _ hf]
    · have hin : e ∈ es := by
        rcases List.mem_cons.mp he with h | h
        · exact absurd h.symm hae
        · exact h
      rw [Forest.remove_update _ _ _ hf, ih hin]

theorem hasFired_cons (cb : Callback) (s : State) (t : Nat) (tm : Timer) :
    hasFired cb { s with fired := (t, tm) :: s.fired } = (tm.cb == cb || hasFired cb s) := by
  simp [hasFired]

theorem hasFired_iff (cb : Callback) (s : State) :
    hasFired cb s = true ↔ ∃ p ∈ s.fired, p.2.cb = cb := by
  simp [hasFired]

theorem hasFired_fireTimer (σ : Script) (cb : Callback) (s : State) (tm : Timer) :
    hasFired cb (fireTimer σ tm s) = (tm.cb == cb || hasFired cb s) := by
  rw [fireTimer_eq]
  simp [hasFired]

theorem pageInv_load (σ : Script) (doc : Forest) : PageInv doc (load σ doc) := by
  rw [load_eq]
  refine ⟨rfl, List.Sublist.refl _, fun _ => rfl, fun _ => rfl, ?_⟩
  intro x h
  simp [hasFired] at h

theorem attrInv_load (σ : Script) (doc : Forest) : AttrInv σ doc (load σ doc) := by
  rw [load_eq]
  refine ⟨fun x el _ h => h, ?_⟩
  intro x el h
  simp [hasFired] at h

theorem pageInv_fire (σ : Script) (doc : Forest) (s : State) (tm : Timer)
    (h : PageInv doc s) (htgt : tm.cb.target ∈ querySelectorAll "alert" doc) :
    PageInv doc (fireTimer σ tm s) := by
  have hfid := fadeElement_id σ.technique
  have hF := fun cb => hasFired_fireTimer σ cb s tm
  have hpage : (fireTimer σ tm s).page = tm.cb.onPage σ.technique s.page := by
    rw [fireTimer_eq]
  have hfired : (fireTimer σ tm s).fired = (s.now, tm) :: s.fired := by
    rw [fireTimer_eq]
  cases hcb : tm.cb with
  | fade e =>
    rw [hcb] at htgt hpage
    simp only [Callback.target] at htgt
    simp only [Callback.onPage] at hpage
    refine ⟨?_, ?_, ?_, ?_, ?_⟩
    · rw [hpage, removeAll_update _ _ htgt _ hfid]
      exact h.outside
    · rw [hpage, Forest.ids_update _ _ hfid]
      exact h.sublist
    · intro hnil
      rw [hfired] at hnil
      cases hnil
    · intro hno
      rw [hpage, Forest.ids_update _ _ hfid]
      apply h.unremoved
      intro p hp
      exact hno p (by rw [hfired]; exact List.mem_cons_of_mem _ hp)
    · intro x hx
      rw [hF, hcb, Bool.or_eq_true] at hx
      rcases hx with hx | hx
      · simp at hx
      · rw [hpage, Forest.ids_update _ _ hfid]
        exact h.gone x hx
  | remove e =>
    rw [hcb] at htgt hpage
    simp only [Callback.target] at htgt
    simp only [Callback.onPage] at hpage
    refine ⟨?_, ?_, ?_, ?_, ?_⟩
    · rw [hpage, removeAll_remove _ _ htgt]
      exact h.outside
    · rw [hpage]
      exact (Forest.ids_remove_sublist e s.page).trans h.sublist
    · intro hnil
      rw [hfired] at hnil
      cases hnil
    · intro hno
      exact absurd hcb (hno (s.now, tm) (by rw [hfired]; exact List.mem_cons_self _ _) e)
    · intro x hx
      rw [hF, hcb, Bool.or_eq_true] at hx
      rw [hpage]
      rcases hx with hx | hx
      · have : e = x := by simpa using hx
        subst this
        exact Forest.not_mem_ids_remove e s.page
      · exact fun hh => h.gone x hx ((Forest.ids_remove_sublist e s.page).subset hh)

theorem attrInv_fire (σ : Script) (doc : Forest) (s : State) (tm : Timer)
    (hnds : s.page.ids.Nodup) (h : AttrInv σ doc s) : AttrInv σ doc (fireTimer σ tm s) := by
  have hfid := fadeElement_id σ.technique
  have hF := fun cb => hasFired_fireTimer σ cb s tm
  have hpage : (fireTimer σ tm s).page = tm.cb.onPage σ.technique s.page := by
    rw [fireTimer_eq]
  cases hcb : tm.cb with
  | fade e =>
    rw [hcb] at hpage
    simp only [Callback.onPage] at hpage
    refine ⟨?_, ?_⟩
    · intro x el hx hfind
      rw [hF, hcb, Bool.or_eq_false_iff] at hx
      have hne : ¬ x = e := fun hh => by
        subst hh
        simp at hx
      rw [hpage, Forest.find?_update _ _ _ hfid] at hfind
      simp only [if_neg hne, Option.map_id'] at hfind
      exact h.kept x el hx.2 hfind
    · intro x el hx hfind
      rw [hpage, Forest.find?_update _ _ _ hfid] at hfind
      by_cases hxe : x = e
      · simp only [if_pos hxe, Option.map_eq_some'] at hfind
        obtain ⟨el0, _, h2⟩ := hfind
        rw [← h2]
        exact isFaded_fadeElement _ _
      · simp only [if_neg hxe, Option.map_id'] at hfind
        rw [hF, hcb, Bool.or_eq_true] at hx
        rcases hx with hx | hx
        · have : e = x := by simpa using hx
          exact absurd this.symm hxe
        · exact h.faded x el hx hfind
  | remove e =>
    rw [hcb] at hpage
    simp only [Callback.onPage] at hpage
    have hmem : ∀ x el, (s.page.remove e).find? x = some el → s.page.find? x = some el := by
      intro x el hfind
      have hx : x ∈ (s.page.remove e).ids := by
        by_contra hcon
        rw [(Forest.find?_eq_none_iff x _).mpr hcon] at hfind
        cases hfind
      rw [← Forest.find?_remove x e s.page hnds hx]
      exact hfind
    refine ⟨?_, ?_⟩
    · intro x el hx hfind
      rw [hF, hcb, Bool.or_eq_false_iff] at hx
      rw [hpage] at hfind
      exact h.kept x el hx.2 (hmem x el hfind)
    · intro x el hx hfind
      rw [hF, hcb, Bool.or_eq_true] at hx
      rw [hpage] at hfind
      rcases hx with hx | hx
      · simp at hx
      · exact h.faded x el hx (hmem x el hfind)

/-- Page facts hold in every state the script's own events reach. -/
theorem pageInv_run (σ : Script) (doc : Forest) (evs : List Event)
    (s : State) (hown : ∀ ev ∈ evs, ev.isOwn = true)
    (h : run σ evs (load σ doc) = some s) : PageInv doc s := by
  have := run_invariant_own σ
    (fun s => TimeInv σ (querySelectorAll "alert" doc) s ∧ PageInv doc s)
    (fun s dt hs => ⟨timeInv_elapse σ _ s dt hs.1,
      ⟨hs.2.outside, hs.2.sublist, hs.2.unfired, hs.2.unremoved, hs.2.gone⟩⟩)
    (fun s tm hs h1 h2 => ⟨timeInv_fire σ _ s tm hs.1 h1 h2,
      pageInv_fire σ doc s tm hs.2 (hs.1.target_pending tm h1)⟩)
    evs (load σ doc) s hown ⟨timeInv_load σ doc, pageInv_load σ doc⟩ h
  exact this.2

/-- Element facts hold in every state the script's own events reach, when the
identities of the page are distinct. -/
theorem attrInv_run (σ : Script) (doc : Forest) (hnd : doc.ids.Nodup) (evs : List Event)
    (s : State) (hown : ∀ ev ∈ evs, ev.isOwn = true)
    (h : run σ evs (load σ doc) = some s) : AttrInv σ doc s := by
  have := run_invariant_own σ
    (fun s => (TimeInv σ (querySelectorAll "alert" doc) s ∧ PageInv doc s) ∧ AttrInv σ doc s)
    (fun s dt hs => ⟨⟨timeInv_elapse σ _ s dt hs.1.1,
      ⟨hs.1.2.outside, hs.1.2.sublist, hs.1.2.unfired, hs.1.2.unremoved, hs.1.2.gone⟩⟩,
      ⟨hs.2.kept, hs.2.faded⟩⟩)
    (fun s tm hs h1 h2 => ⟨⟨timeInv_fire σ _ s tm hs.1.1 h1 h2,
      pageInv_fire σ doc s tm hs.1.2 (hs.1.1.target_pending tm h1)⟩,
      attrInv_fire σ doc s tm (hnd.sublist hs.1.2.sublist) hs.2⟩)
    evs (load σ doc) s hown ⟨⟨timeInv_load σ doc, pageInv_load σ doc⟩, attrInv_load σ doc⟩ h
  exact this.2

/-! ## Punctual timers -/

theorem nextTimer_mem (l : List Timer) (tm : Timer) (h : nextTimer l = some tm) : tm ∈ l := by
  induction l generalizing tm with
  | nil => cases h
  | cons a rest ih =>
    simp only [nextTimer] at h
    cases hr : nextTimer rest with
    | none =>
      rw [hr] at h
      cases h
      exact List.mem_cons_self _ _
    | some b =>
      rw [hr] at h
      simp only at h
      split at h
      · rw [← Option.some.inj h]
        exact List.mem_cons_of_mem _ (ih b hr)
      · rw [← Option.some.inj h]
        exact List.mem_cons_self _ _

theorem nextTimer_eq_none (l : List Timer) (h : nextTimer l = none) : l = [] := by
  cases l with
  | nil => rfl
  | cons a rest =>
    simp only [nextTimer] at h
    cases hr : nextTimer rest with
    | none =>
      rw [hr] at h
      cases h
    | some b =>
      rw [hr] at h
      simp only at h
      split at h <;> cases h

theorem nextTimer_min (l : List Timer) (tm : Timer) (h : nextTimer l = some tm) :
    ∀ x ∈ l, tm.due ≤ x.due := by
  induction l generalizing tm with
  | nil => cases h
  | cons a rest ih =>
    simp only [nextTimer] at h
    cases hr : nextTimer rest with
    | none =>
      rw [hr] at h
      rw [← Option.some.inj h, nextTimer_eq_none rest hr]
      intro x hx
      rw [List.mem_singleton.mp hx]
    | some b =>
      rw [hr] at h
      simp only at h
      have hb := ih b hr
      intro x hx
      split at h
      · rename_i hlt
        rw [← Option.some.inj h]
        rcases List.mem_cons.mp hx with hx | hx
        · rw [hx]
          omega
        · exact hb x hx
      · rename_i hlt
        rw [← Option.some.inj h]
        rcases List.mem_cons.mp hx with hx | hx
        · rw [hx]
        · have := hb x hx
          omega

theorem nextTimer_head (tm : Timer) (rest : List Timer)
    (h : ∀ x ∈ rest, tm.due ≤ x.due) : nextTimer (tm :: rest) = some tm := by
  simp only [nextTimer]
  cases hr : nextTimer rest with
  | none => rfl
  | some b =>
    have := h b (nextTimer_mem rest b hr)
    simp only
    rw [if_neg (by omega)]

theorem settle_idle (σ : Script) (fuel t : Nat) (s : State)
    (h : ∀ tm ∈ s.timers, t < tm.due) :
    settle σ fuel t s = { s with now := max s.now t } := by
  cases fuel with
  | zero => rfl
  | succ fuel =>
    simp only [settle]
    cases hn : nextTimer s.timers with
    | none => rfl
    | some tm =>
      have := h tm (nextTimer_mem _ _ hn)
      simp only
      rw [if_neg (by omega)]

theorem fireAll_cons (σ : Script) (tm : Timer) (tms : List Timer) (s : State) :
    fireAll σ (tm :: tms) s
      = fireAll σ tms (fireTimer σ tm { s with now := max s.now tm.due }) := rfl

theorem settle_fireAll (σ : Script) (t D k : Nat) (F : List Timer) :
    ∀ (R : List Timer) (s : State), s.timers = F ++ R → (∀ x ∈ F, x.due = D) →
      (∀ x ∈ R, D ≤ x.due) → D ≤ t →
      settle σ (F.length + k) t s = settle σ k t (fireAll σ F s) := by
  induction F with
  | nil =>
    intro R s _ _ _ _
    simp [fireAll]
  | cons tm F ih =>
    intro R s hs hF hR hDt
    have htm : tm.due = D := hF tm (List.mem_cons_self _ _)
    have hnext : nextTimer s.timers = some tm := by
      rw [hs, List.cons_append]
      apply nextTimer_head
      intro x hx
      rw [htm]
      rcases List.mem_append.mp hx with hx | hx
      · exact Nat.le_of_eq (hF x (List.mem_cons_of_mem _ hx)).symm
      · exact hR x hx
    have hlen : (tm :: F).length + k = (F.length + k) + 1 := by
      simp only [List.length_cons]
      omega
    rw [hlen, settle, hnext]
    simp only
    rw [if_pos (by omega), fireAll_cons]
    apply ih (R ++ tm.cb.spawn σ.fadeMs (max s.now tm.due) s.nextId)
    · rw [fireTimer_eq]
      simp only [hs, List.cons_append, List.erase_cons_head, List.append_assoc]
    · intro x hx
      exact hF x (List.mem_cons_of_mem _ hx)
    · intro x hx
      rcases List.mem_append.mp hx with hx | hx
      · exact hR x hx
      · have := (spawn_due _ _ _ _ x hx).1
        rw [this, htm]
        exact Nat.le_trans (Nat.le_max_right _ _) (Nat.le_add_right _ _)
    · exact hDt

theorem pendingWork_append (l₁ l₂ : List Timer) :
    pendingWork (l₁ ++ l₂) = pendingWork l₁ + pendingWork l₂ := by
  induction l₁ with
  | nil => simp [pendingWork]
  | cons a l ih => simp [pendingWork, ih, Nat.add_assoc]

theorem pendingWork_erase (l : List Timer) (tm : Timer) (h : tm ∈ l) :
    pendingWork l = pendingWork (l.erase tm) + tm.cb.weight := by
  induction l with
  | nil => cases h
  | cons a l ih =>
    by_cases hat : a = tm
    · subst hat
      rw [List.erase_cons_head, pendingWork]
      omega
    · have hin : tm ∈ l := by
        rcases List.mem_cons.mp h with h | h
        · exact absurd h.symm hat
        · exact h
      rw [List.erase_cons_tail (by simpa using hat), pendingWork, pendingWork, ih hin]
      omega

theorem pendingWork_fire (σ : Script) (tm : Timer) (s : State) (h : tm ∈ s.timers) :
    pendingWork (fireTimer σ tm s).timers + 1 = pendingWork s.timers := by
  rw [fireTimer_eq]
  simp only [pendingWork_append]
  rw [pendingWork_erase s.timers tm h]
  cases tm.cb <;> simp [Callback.spawn, Callback.weight, pendingWork]

/-- With fuel for the pending work the punctual run leaves no timer due. -/
theorem settle_quiescent (σ : Script) (t : Nat) :
    ∀ (fuel : Nat) (s : State), pendingWork s.timers ≤ fuel →
      ∀ tm ∈ (settle σ fuel t s).timers, t < tm.due := by
  intro fuel
  induction fuel with
  | zero =>
    intro s hs tm htm
    simp only [settle] at htm
    cases hl : s.timers with
    | nil =>
      rw [hl] at htm
      cases htm
    | cons a l =>
      rw [hl, pendingWork] at hs
      cases hc : a.cb <;> rw [hc] at hs <;> simp [Callback.weight] at hs
  | succ fuel ih =>
    intro s hs tm htm
    simp only [settle] at htm
    cases hn : nextTimer s.timers with
    | none =>
      rw [hn] at htm
      simp only at htm
      rw [nextTimer_eq_none _ hn] at htm
      cases htm
    | some a =>
      rw [hn] at htm
      simp only at htm
      by_cases hdue : a.due ≤ t
      · rw [if_pos hdue] at htm
        refine ih _ ?_ tm htm
        have := pendingWork_fire σ a { s with now := max s.now a.due } (nextTimer_mem _ _ hn)
        simp only at this
        omega
      · rw [if_neg hdue] at htm
        simp only at htm
        have := nextTimer_min _ _ hn tm htm
        omega

theorem runUntil_quiescent (σ : Script) (t : Nat) (s : State) :
    ∀ tm ∈ (runUntil σ t s).timers, t < tm.due :=
  settle_quiescent σ t _ s (Nat.le_refl _)

/-- The punctual run is an execution of the event loop, made of the script's own
events. -/
theorem settle_is_run (σ : Script) (t : Nat) :
    ∀ (fuel : Nat) (s : State), ∃ evs : List Event,
      (∀ ev ∈ evs, ev.isOwn = true) ∧ run σ evs s = some (settle σ fuel t s) := by
  intro fuel
  have hlast : ∀ s : State, ∃ evs : List Event,
      (∀ ev ∈ evs, ev.isOwn = true) ∧ run σ evs s = some { s with now := max s.now t } := by
    intro s
    refine ⟨[.elapse (max s.now t - s.now)], ?_, ?_⟩
    · intro ev hev
      rw [List.mem_singleton.mp hev]
      rfl
    · simp only [run, step, Option.bind]
      have : s.now + (max s.now t - s.now) = max s.now t := by omega
      rw [this]
  induction fuel with
  | zero =>
    intro s
    exact hlast s
  | succ fuel ih =>
    intro s
    simp only [settle]
    cases hn : nextTimer s.timers with
    | none => exact hlast s
    | some tm =>
      simp only
      by_cases hdue : tm.due ≤ t
      · rw [if_pos hdue]
        obtain ⟨evs, hown, hrun⟩ := ih (fireTimer σ tm { s with now := max s.now tm.due })
        refine ⟨.elapse (max s.now tm.due - s.now) :: .fire tm :: evs, ?_, ?_⟩
        · intro ev hev
          rcases List.mem_cons.mp hev with h | h
          · rw [h]; rfl
          · rcases List.mem_cons.mp h with h | h
            · rw [h]; rfl
            · exact hown ev h
        · have h1 : s.now + (max s.now tm.due - s.now) = max s.now tm.due := by omega
          have hmem : tm ∈ s.timers := nextTimer_mem _ _ hn
          have hle : tm.due ≤ max s.now tm.due := Nat.le_max_right _ _
          simp only [run, step, Option.bind, h1]
          rw [if_pos ⟨hmem, hle⟩]
          exact hrun
      · rw [if_neg hdue]
        exact hlast s

theorem runUntil_is_run (σ : Script) (t : Nat) (s : State) : ∃ evs : List Event,
    (∀ ev ∈ evs, ev.isOwn = true) ∧ run σ evs s = some (runUntil σ t s) :=
  settle_is_run σ t _ s

/-! ## Closed form of the punctual run -/

theorem fireAll_fades (σ : Script) (D : Nat) :
    ∀ (F : List Nat) (i : Nat) (R : List Timer) (s : State),
      s.timers = mkTimers Callback.fade D i F ++ R → s.now ≤ D →
      (fireAll σ (mkTimers Callback.fade D i F) s).page = fadeAll σ.technique F s.page ∧
      (fireAll σ (mkTimers Callback.fade D i F) s).timers
        = R ++ mkTimers Callback.remove (D + σ.fadeMs) s.nextId F ∧
      (fireAll σ (mkTimers Callback.fade D i F) s).nextId = s.nextId + F.length ∧
      (fireAll σ (mkTimers Callback.fade D i F) s).fired
        = ((mkTimers Callback.fade D i F).map (fun tm => (D, tm))).reverse ++ s.fired ∧
      (fireAll σ (mkTimers Callback.fade D i F) s).console = s.console ∧
      (fireAll σ (mkTimers Callback.fade D i F) s).queries = s.queries ∧
      (fireAll σ (mkTimers Callback.fade D i F) s).now ≤ D ∧
      (F ≠ [] → (fireAll σ (mkTimers Callback.fade D i F) s).now = D) := by
  intro F
  induction F with
  | nil =>
    intro i R s hs hnow
    simp [mkTimers, fireAll, fadeAll, hnow]
    exact hs
  | cons e F ih =>
    intro i R s hs hnow
    have hmax : max s.now D = D := Nat.max_eq_right hnow
    simp only [mkTimers, fireAll_cons]
    have hs1 : (fireTimer σ { id := i, due := D, cb := Callback.fade e }
        { s with now := max s.now D }).timers
        = mkTimers Callback.fade D (i + 1) F
          ++ (R ++ [{ id := s.nextId, due := D + σ.fadeMs, cb := Callback.remove e }]) := by
      rw [fireTimer_eq]
      simp only [hs, mkTimers, List.cons_append, List.erase_cons_head, Callback.spawn, hmax,
        List.append_assoc]
    have hn1 : (fireTimer σ { id := i, due := D, cb := Callback.fade e }
        { s with now := max s.now D }).now ≤ D := by
      rw [fireTimer_eq]
      simp only [hmax]
      exact Nat.le_refl _
    obtain ⟨h1, h2, h3, h4, h5, h6, h7, h8⟩ := ih (i + 1) _ _ hs1 hn1
    refine ⟨?_, ?_, ?_, ?_, ?_, ?_, h7, ?_⟩
    · rw [h1, fireTimer_eq]
      rfl
    · rw [h2, fireTimer_eq]
      simp [Callback.spawn, mkTimers]
    · rw [h3, fireTimer_eq]
      simp only [Callback.spawn, List.length_cons, List.length_nil]
      omega
    · rw [h4, fireTimer_eq]
      simp [hmax]
    · rw [h5, fireTimer_eq]
    · rw [h6, fireTimer_eq]
    · intro _
      by_cases hF : F = []
      · subst hF
        simp only [mkTimers, fireAll, List.foldl_nil]
        rw [fireTimer_eq]
        exact hmax
      · exact h8 hF

theorem fireAll_removes (σ : Script) (D : Nat) :
    ∀ (F : List Nat) (i : Nat) (R : List Timer) (s : State),
      s.timers = mkTimers Callback.remove D i F ++ R → s.now ≤ D →
      (fireAll σ (mkTimers Callback.remove D i F) s).page = removeAll F s.page ∧
      (fireAll σ (mkTimers Callback.remove D i F) s).timers = R ∧
      (fireAll σ (mkTimers Callback.remove D i F) s).nextId = s.nextId ∧
      (fireAll σ (mkTimers Callback.remove D i F) s).fired
        = ((mkTimers Callback.remove D i F).map (fun tm => (D, tm))).reverse ++ s.fired ∧
      (fireAll σ (mkTimers Callback.remove D i F) s).console = s.console ∧
      (fireAll σ (mkTimers Callback.remove D i F) s).queries = s.queries ∧
      (fireAll σ (mkTimers Callback.remove D i F) s).now ≤ D ∧
      (F ≠ [] → (fireAll σ (mkTimers Callback.remove D i F) s).now = D) := by
  intro F
  induction F with
  | nil =>
    intro i R s hs hnow
    simp [mkTimers, fireAll, removeAll, hnow]
    exact hs
  | cons e F ih =>
    intro i R s hs hnow
    have hmax : max s.now D = D := Nat.max_eq_right hnow
    simp only [mkTimers, fireAll_cons]
    have hs1 : (fireTimer σ { id := i, due := D, cb := Callback.remove e }
        { s with now := max s.now D }).timers
        = mkTimers Callback.remove D (i + 1) F ++ R := by
      rw [fireTimer_eq]
      simp only [hs, mkTimers, List.cons_append, List.erase_cons_head, Callback.spawn,
        List.append_nil]
    have hn1 : (fireTimer σ { id := i, due := D, cb := Callback.remove e }
        { s with now := max s.now D }).now ≤ D := by
      rw [fireTimer_eq]
      simp only [hmax]
      exact Nat.le_refl _
    obtain ⟨h1, h2, h3, h4, h5, h6, h7, h8⟩ := ih (i + 1) _ _ hs1 hn1
    refine ⟨?_, h2, ?_, ?_, ?_, ?_, h7, ?_⟩
    · rw [h1, fireTimer_eq]
      rfl
    · rw [h3, fireTimer_eq]
      simp only [Callback.spawn, List.length_nil]
      omega
    · rw [h4, fireTimer_eq]
      simp [hmax]
    · rw [h5, fireTimer_eq]
    · rw [h6, fireTimer_eq]
    · intro _
      by_cases hF : F = []
      · subst hF
        simp only [mkTimers, fireAll, List.foldl_nil]
        rw [fireTimer_eq]
        exact hmax
      · exact h8 hF

theorem pendingWork_fades (D i : Nat) (F : List Nat) :
    pendingWork (mkTimers Callback.fade D i F) = F.length + F.length := by
  induction F generalizing i with
  | nil => rfl
  | cons e F ih =>
    simp only [mkTimers, pendingWork, ih, Callback.weight, List.length_cons]
    omega

theorem settle_sweep (σ : Script) (t D k i : Nat) (c : Nat → Callback) (F : List Nat)
    (s : State) (hs : s.timers = mkTimers c D i F) (hDt : D ≤ t) :
    settle σ (F.length + k) t s = settle σ k t (sweep σ s) := by
  have := settle_fireAll σ t D k (mkTimers c D i F) [] s (by simpa using hs)
    (fun x hx => (mkTimers_mem _ _ _ _ x hx).1) (fun x hx => by cases hx) hDt
  rw [mkTimers_length] at this
  unfold sweep
  rw [hs]
  exact this

theorem sweep_fades (σ : Script) (D i : Nat) (F : List Nat) (s : State)
    (hs : s.timers = mkTimers Callback.fade D i F) (hnow : s.now ≤ D) :
    (sweep σ s).page = fadeAll σ.technique F s.page ∧
    (sweep σ s).timers = mkTimers Callback.remove (D + σ.fadeMs) s.nextId F ∧
    (sweep σ s).nextId = s.nextId + F.length ∧
    (sweep σ s).fired
      = ((mkTimers Callback.fade D i F).map (fun tm => (D, tm))).reverse ++ s.fired ∧
    (sweep σ s).console = s.console ∧
    (sweep σ s).queries = s.queries ∧
    (sweep σ s).now ≤ D ∧
    (F ≠ [] → (sweep σ s).now = D) := by
  have hfa := fireAll_fades σ D F i [] s (by simpa using hs) hnow
  rw [List.nil_append] at hfa
  unfold sweep
  rw [hs]
  exact hfa

theorem sweep_removes (σ : Script) (D i : Nat) (F : List Nat) (s : State)
    (hs : s.timers = mkTimers Callback.remove D i F) (hnow : s.now ≤ D) :
    (sweep σ s).page = removeAll F s.page ∧
    (sweep σ s).timers = [] ∧
    (sweep σ s).nextId = s.nextId ∧
    (sweep σ s).fired
      = ((mkTimers Callback.remove D i F).map (fun tm => (D, tm))).reverse ++ s.fired ∧
    (sweep σ s).console = s.console ∧
    (sweep σ s).queries = s.queries ∧
    (sweep σ s).now ≤ D ∧
    (F ≠ [] → (sweep σ s).now = D) := by
  have hfa := fireAll_removes σ D F i [] s (by simpa using hs) hnow
  unfold sweep
  rw [hs]
  exact hfa

/-- Before the first delay has passed the punctual run only moves the clock. -/
theorem runUntil_early (σ : Script) (D i t : Nat) (F : List Nat) (s : State)
    (hs : s.timers = mkTimers Callback.fade D i F) (ht : t < D) :
    runUntil σ t s = { s with now := max s.now t } := by
  apply settle_idle
  intro tm htm
  rw [hs] at htm
  rw [(mkTimers_mem _ _ _ _ tm htm).1]
  exact ht

/-- From the first delay until the removal timers are due, the punctual run has
fired the fade timers and nothing else. -/
theorem runUntil_mid (σ : Script) (D i t : Nat) (F : List Nat) (s : State)
    (hs : s.timers = mkTimers Callback.fade D i F) (hnow : s.now ≤ D)
    (ht1 : D ≤ t) (ht2 : t < D + σ.fadeMs) :
    runUntil σ t s = { sweep σ s with now := t } := by
  have hsw := sweep_fades σ D i F s hs hnow
  unfold runUntil
  rw [hs, pendingWork_fades, settle_sweep σ t D F.length i _ F s hs ht1, settle_idle]
  · rw [Nat.max_eq_right (Nat.le_trans hsw.2.2.2.2.2.2.1 ht1)]
  · intro tm htm
    rw [hsw.2.1] at htm
    rw [(mkTimers_mem _ _ _ _ tm htm).1]
    exact ht2

/-- Once the removal timers are due, the punctual run has fired the fade timers
and then the removal timers. -/
theorem runUntil_late (σ : Script) (D i t : Nat) (F : List Nat) (s : State)
    (hs : s.timers = mkTimers Callback.fade D i F) (hnow : s.now ≤ D)
    (ht : D + σ.fadeMs ≤ t) :
    runUntil σ t s = { sweep σ (sweep σ s) with now := t } := by
  have hsw := sweep_fades σ D i F s hs hnow
  have hn1 : (sweep σ s).now ≤ D + σ.fadeMs :=
    Nat.le_trans hsw.2.2.2.2.2.2.1 (Nat.le_add_right _ _)
  have hsw2 := sweep_removes σ (D + σ.fadeMs) s.nextId F (sweep σ s) hsw.2.1 hn1
  unfold runUntil
  rw [hs, pendingWork_fades, settle_sweep σ t D F.length i _ F s hs (by omega),
    ← Nat.add_zero F.length,
    settle_sweep σ t (D + σ.fadeMs) 0 s.nextId _ F (sweep σ s) hsw.2.1 ht]
  simp only [settle]
  rw [Nat.max_eq_right (Nat.le_trans hsw2.2.2.2.2.2.2.1 ht)]

/-! ## Trajectory of the punctual run -/

theorem traj_early (σ : Script) (D i t : Nat) (F : List Nat) (s : State)
    (hs : s.timers = mkTimers Callback.fade D i F) (ht : t < D) :
    (runUntil σ t s).page = s.page ∧ (runUntil σ t s).timers = s.timers ∧
    (runUntil σ t s).fired = s.fired ∧ (runUntil σ t s).nextId = s.nextId ∧
    (runUntil σ t s).now = max s.now t := by
  rw [runUntil_early σ D i t F s hs ht]
  exact ⟨rfl, rfl, rfl, rfl, rfl⟩

theorem traj_mid (σ : Script) (D i t : Nat) (F : List Nat) (s : State)
    (hs : s.timers = mkTimers Callback.fade D i F) (hnow : s.now ≤ D)
    (ht1 : D ≤ t) (ht2 : t < D + σ.fadeMs) :
    (runUntil σ t s).page = fadeAll σ.technique F s.page ∧
    (runUntil σ t s).timers = mkTimers Callback.remove (D + σ.fadeMs) s.nextId F ∧
    (runUntil σ t s).fired
      = ((mkTimers Callback.fade D i F).map (fun tm => (D, tm))).reverse ++ s.fired ∧
    (runUntil σ t s).nextId = s.nextId + F.length ∧
    (runUntil σ t s).now = t ∧
    (runUntil σ t s).console = s.console ∧
    (runUntil σ t s).queries = s.queries := by
  have hsw := sweep_fades σ D i F s hs hnow
  rw [runUntil_mid σ D i t F s hs hnow ht1 ht2]
  exact ⟨hsw.1, hsw.2.1, hsw.2.2.2.1, hsw.2.2.1, rfl, hsw.2.2.2.2.1, hsw.2.2.2.2.2.1⟩

theorem traj_late (σ : Script) (D i t : Nat) (F : List Nat) (s : State)
    (hs : s.timers = mkTimers Callback.fade D i F) (hnow : s.now ≤ D)
    (ht : D + σ.fadeMs ≤ t) :
    (runUntil σ t s).page = removeAll F (fadeAll σ.technique F s.page) ∧
    (runUntil σ t s).timers = [] ∧
    (runUntil σ t s).fired
      = ((mkTimers Callback.remove (D + σ.fadeMs) s.nextId F).map
          (fun tm => (D + σ.fadeMs, tm))).reverse
        ++ (((mkTimers Callback.fade D i F).map (fun tm => (D, tm))).reverse ++ s.fired) ∧
    (runUntil σ t s).nextId = s.nextId + F.length ∧
    (runUntil σ t s).now = t ∧
    (runUntil σ t s).console = s.console ∧
    (runUntil σ t s).queries = s.queries := by
  have hsw := sweep_fades σ D i F s hs hnow
  have hn1 : (sweep σ s).now ≤ D + σ.fadeMs :=
    Nat.le_trans hsw.2.2.2.2.2.2.1 (Nat.le_add_right _ _)
  have hsw2 := sweep_removes σ (D + σ.fadeMs) s.nextId F (sweep σ s) hsw.2.1 hn1
  rw [runUntil_late σ D i t F s hs hnow ht]
  refine ⟨?_, hsw2.2.1, ?_, ?_, rfl, ?_, ?_⟩
  · show (sweep σ (sweep σ s)).page = _
    rw [hsw2.1, hsw.1]
  · show (sweep σ (sweep σ s)).fired = _
    rw [hsw2.2.2.2.1, hsw.2.2.2.1]
  · show (sweep σ (sweep σ s)).nextId = _
    rw [hsw2.2.2.1, hsw.2.2.1]
  · show (sweep σ (sweep σ s)).console = _
    rw [hsw2.2.2.2.2.1, hsw.2.2.2.2.1]
  · show (sweep σ (sweep σ s)).queries = _
    rw [hsw2.2.2.2.2.2.1, hsw.2.2.2.2.2.1]

theorem load_timers (σ : Script) (doc : Forest) :
    (load σ doc).timers = mkTimers Callback.fade 5000 1 (querySelectorAll "alert" doc) := by
  rw [load_eq]
  rfl

theorem load_now (σ : Script) (doc : Forest) : (load σ doc).now = 0 := by
  rw [load_eq]

theorem load_page (σ : Script) (doc : Forest) : (load σ doc).page = doc := by
  rw [load_eq]

theorem load_fired (σ : Script) (doc : Forest) : (load σ doc).fired = [] := by
  rw [load_eq]

theorem load_nextId (σ : Script) (doc : Forest) :
    (load σ doc).nextId = 1 + (querySelectorAll "alert" doc).length := by
  rw [load_eq]

theorem fired_cbs_map (D : Nat) (l : List Timer) :
    ((l.map (fun tm => (D, tm))).reverse).map (fun p : Nat × Timer => p.2.cb)
      = (l.map Timer.cb).reverse := by
  rw [List.map_reverse, List.map_map]
  rfl

theorem hasFired_eq (cb : Callback) (s : State) :
    hasFired cb s = decide (cb ∈ s.fired.map (fun p => p.2.cb)) := by
  rw [Bool.eq_iff_iff, hasFired_iff]
  simp only [decide_eq_true_eq, List.mem_map]

/-- Callbacks that have run when the punctual run from a state with the handler's
timers reaches time `t`. -/
theorem traj_fired (σ : Script) (D i t : Nat) (F : List Nat) (s : State)
    (hs : s.timers = mkTimers Callback.fade D i F) (hnow : s.now ≤ D)
    (hf : s.fired = []) (e : Nat) :
    (hasFired (.fade e) (runUntil σ t s) = true ↔ D ≤ t ∧ e ∈ F) ∧
    (hasFired (.remove e) (runUntil σ t s) = true ↔ D + σ.fadeMs ≤ t ∧ e ∈ F) := by
  by_cases h1 : t < D
  · have h := (traj_early σ D i t F s hs h1).2.2.1
    simp only [hasFired_eq, h, hf, List.map_nil, List.not_mem_nil, decide_False,
      Bool.false_eq_true, false_iff, not_and]
    exact ⟨fun hh => by omega, fun hh => by omega⟩
  · by_cases h2 : t < D + σ.fadeMs
    · have h := (traj_mid σ D i t F s hs hnow (by omega) h2).2.2.1
      simp only [hasFired_eq, h, hf, List.append_nil, fired_cbs_map, mkTimers_map_cb,
        List.mem_reverse, List.mem_map, decide_eq_true_eq]
      constructor
      · constructor
        · rintro ⟨a, ha, hh⟩
          cases hh
          exact ⟨by omega, ha⟩
        · rintro ⟨_, ha⟩
          exact ⟨e, ha, rfl⟩
      · constructor
        · rintro ⟨a, _, hh⟩
          cases hh
        · rintro ⟨hh, _⟩
          omega
    · have h := (traj_late σ D i t F s hs hnow (by omega)).2.2.1
      simp only [hasFired_eq, h, hf, List.append_nil, List.map_append, fired_cbs_map,
        mkTimers_map_cb, List.mem_append, List.mem_reverse, List.mem_map, decide_eq_true_eq]
      constructor
      · constructor
        · rintro (⟨a, _, hh⟩ | ⟨a, ha, hh⟩)
          · cases hh
          · cases hh
            exact ⟨by omega, ha⟩
        · rintro ⟨_, ha⟩
          exact Or.inr ⟨e, ha, rfl⟩
      · constructor
        · rintro (⟨a, ha, hh⟩ | ⟨a, _, hh⟩)
          · cases hh
            exact ⟨by omega, ha⟩
          · cases hh
        · rintro ⟨_, ha⟩
          exact Or.inl ⟨e, ha, rfl⟩

/-- State of a matched element along the punctual run: visible before the first
delay, fading from then until the fade duration has passed, removed after. -/
theorem traj_phase (σ : Script) (D i t : Nat) (F : List Nat) (s : State)
    (hs : s.timers = mkTimers Callback.fade D i F) (hnow : s.now ≤ D)
    (hf : s.fired = []) (e : Nat) (he : e ∈ F) :
    phase e (runUntil σ t s)
      = if t < D then .visible else if t < D + σ.fadeMs then .fading else .removed := by
  have h := traj_fired σ D i t F s hs hnow hf e
  unfold phase
  by_cases h1 : t < D
  · have hr : ¬ hasFired (.remove e) (runUntil σ t s) = true := fun hh => by
      have := (h.2.mp hh).1
      omega
    have hfd : ¬ hasFired (.fade e) (runUntil σ t s) = true := fun hh => by
      have := (h.1.mp hh).1
      omega
    rw [if_neg hr, if_neg hfd, if_pos h1]
  · by_cases h2 : t < D + σ.fadeMs
    · have hr : ¬ hasFired (.remove e) (runUntil σ t s) = true := fun hh => by
        have := (h.2.mp hh).1
        omega
      have hfd : hasFired (.fade e) (runUntil σ t s) = true := h.1.mpr ⟨by omega, he⟩
      rw [if_neg hr, if_pos hfd, if_neg h1, if_pos h2]
    · have hr : hasFired (.remove e) (runUntil σ t s) = true := h.2.mpr ⟨by omega, he⟩
      rw [if_pos hr, if_neg h1, if_neg h2]

/-! ## The page after the fades and after the removals -/

theorem find?_fadeAll_of_not_mem (k : Technique) (F : List Nat) (x : Nat) (hx : x ∉ F)
    (p : Forest) : (fadeAll k F p).find? x = p.find? x := by
  induction F generalizing p with
  | nil => rfl
  | cons a F ih =>
    have hne : ¬ x = a := fun hh => hx (hh ▸ List.mem_cons_self _ _)
    rw [fadeAll_cons, ih (fun hh => hx (List.mem_cons_of_mem _ hh)),
      Forest.find?_update _ _ _ (fadeElement_id k)]
    simp only [if_neg hne, Option.map_id']

theorem faded_update (k : Technique) (a x : Nat) (p : Forest)
    (h : ∃ el, p.find? x = some el ∧ isFaded k el = true) :
    ∃ el, (p.update a (fadeElement k)).find? x = some el ∧ isFaded k el = true := by
  obtain ⟨el, h1, h2⟩ := h
  rw [Forest.find?_update _ _ _ (fadeElement_id k), h1]
  by_cases hxa : x = a
  · exact ⟨fadeElement k el, by simp [hxa], isFaded_fadeElement k el⟩
  · exact ⟨el, by simp [hxa], h2⟩

theorem faded_fadeAll (k : Technique) (F : List Nat) (x : Nat) (p : Forest)
    (h : ∃ el, p.find? x = some el ∧ isFaded k el = true) :
    ∃ el, (fadeAll k F p).find? x = some el ∧ isFaded k el = true := by
  induction F generalizing p with
  | nil => exact h
  | cons a F ih =>
    rw [fadeAll_cons]
    exact ih _ (faded_update k a x p h)

theorem find?_fadeAll_of_mem (k : Technique) (F : List Nat) (x : Nat) (hx : x ∈ F)
    (p : Forest) (hp : x ∈ p.ids) :
    ∃ el, (fadeAll k F p).find? x = some el ∧ isFaded k el = true := by
  induction F generalizing p with
  | nil => cases hx
  | cons a F ih =>
    rw [fadeAll_cons]
    by_cases hxa : x = a
    · apply faded_fadeAll
      cases hf : p.find? x with
      | none => exact absurd hp ((Forest.find?_eq_none_iff x p).mp hf)
      | some el =>
        refine ⟨fadeElement k el, ?_, isFaded_fadeElement k el⟩
        rw [Forest.find?_update _ _ _ (fadeElement_id k), hf]
        simp [hxa]
    · have hin : x ∈ F := by
        rcases List.mem_cons.mp hx with h | h
        · exact absurd h hxa
        · exact h
      exact ih hin _ (by rw [Forest.ids_update _ _ (fadeElement_id k)]; exact hp)

theorem removeAll_fadeAll (k : Technique) (S F : List Nat) (hF : ∀ e ∈ F, e ∈ S)
    (p : Forest) : removeAll S (fadeAll k F p) = removeAll S p := by
  induction F generalizing p with
  | nil => rfl
  | cons a F ih =>
    rw [fadeAll_cons, ih (fun e he => hF e (List.mem_cons_of_mem _ he)),
      removeAll_update S a (hF a (List.mem_cons_self _ _)) _ (fadeElement_id k)]

theorem observe_fading (k : Technique) (x : Nat) (p : Forest)
    (h : ∃ el, p.find? x = some el ∧ isFaded k el = true) : observe k x p = .fading := by
  obtain ⟨el, h1, h2⟩ := h
  simp [observe, h1, h2]

theorem observe_removed (k : Technique) (x : Nat) (p : Forest) :
    observe k x p = .removed ↔ x ∉ p.ids := by
  rw [← Forest.find?_eq_none_iff]
  unfold observe
  cases p.find? x with
  | none => simp
  | some el =>
    simp only [reduceCtorEq, iff_false]
    split <;> simp

theorem State.eq_of_fields (a b : State) (h1 : a.now = b.now) (h2 : a.page = b.page)
    (h3 : a.timers = b.timers) (h4 : a.nextId = b.nextId) (h5 : a.fired = b.fired)
    (h6 : a.console = b.console) (h7 : a.queries = b.queries) : a = b := by
  cases a
  cases b
  simp only at h1 h2 h3 h4 h5 h6 h7
  subst h1 h2 h3 h4 h5 h6 h7
  rfl

theorem pendingWork_removes (D i : Nat) (F : List Nat) :
    pendingWork (mkTimers Callback.remove D i F) = F.length + 0 := by
  induction F generalizing i with
  | nil => rfl
  | cons e F ih =>
    simp only [mkTimers, pendingWork, ih, Callback.weight, List.length_cons]
    omega

/-- The punctual run from a state whose pending timers are removal timers with a
common due time. -/
theorem traj_removes (σ : Script) (D i t : Nat) (F : List Nat) (s : State)
    (hs : s.timers = mkTimers Callback.remove D i F) (hnow : s.now ≤ D) (ht : D ≤ t) :
    (runUntil σ t s).page = removeAll F s.page ∧
    (runUntil σ t s).timers = [] ∧
    (runUntil σ t s).fired
      = ((mkTimers Callback.remove D i F).map (fun tm => (D, tm))).reverse ++ s.fired ∧
    (runUntil σ t s).nextId = s.nextId ∧
    (runUntil σ t s).now = t ∧
    (runUntil σ t s).console = s.console ∧
    (runUntil σ t s).queries = s.queries := by
  have hsw := sweep_removes σ D i F s hs hnow
  have : runUntil σ t s = { sweep σ s with now := t } := by
    unfold runUntil
    rw [hs, pendingWork_removes, settle_sweep σ t D 0 i _ F s hs ht]
    simp only [settle]
    rw [Nat.max_eq_right (Nat.le_trans hsw.2.2.2.2.2.2.1 ht)]
  rw [this]
  exact ⟨hsw.1, hsw.2.1, hsw.2.2.2.1, hsw.2.2.1, rfl, hsw.2.2.2.2.1, hsw.2.2.2.2.2.1⟩

/-- Running punctually to the first delay and then on to the removal time is the
same as running punctually to the removal time at once. -/
theorem runUntil_twice (σ : Script) (doc : Forest) (hd : 0 < σ.fadeMs) (t : Nat)
    (ht : 5000 + σ.fadeMs ≤ t) :
    runUntil σ t (runUntil σ 5000 (load σ doc)) = runUntil σ t (load σ doc) := by
  have hl := load_timers σ doc
  have hn : (load σ doc).now ≤ 5000 := by rw [load_eq]; exact Nat.zero_le _
  have hm := traj_mid σ 5000 1 5000 _ (load σ doc) hl hn (Nat.le_refl _) (by omega)
  have hL := traj_late σ 5000 1 t _ (load σ doc) hl hn ht
  have hR := traj_removes σ (5000 + σ.fadeMs) (load σ doc).nextId t _
    (runUntil σ 5000 (load σ doc)) hm.2.1 (by rw [hm.2.2.2.2.1]; omega) ht
  apply State.eq_of_fields
  · rw [hR.2.2.2.2.1, hL.2.2.2.2.1]
  · rw [hR.1, hL.1, hm.1]
  · rw [hR.2.1, hL.2.1]
  · rw [hR.2.2.2.1, hL.2.2.2.1, hm.2.2.2.1]
  · rw [hR.2.2.1, hL.2.2.1, hm.2.2.1]
  · rw [hR.2.2.2.2.2.1, hL.2.2.2.2.2.1, hm.2.2.2.2.2.1]
  · rw [hR.2.2.2.2.2.2, hL.2.2.2.2.2.2, hm.2.2.2.2.2.2]

theorem isFadeOf_eq (e : Nat) (c : Callback) :
    Callback.isFadeOf (fun x => x == e) c = (c == Callback.fade e) := by
  cases c with
  | fade x =>
    simp only [Callback.isFadeOf]
    by_cases h : x = e
    · subst h
      simp
    · have : ¬ Callback.fade x = Callback.fade e := fun hh => h (Callback.fade.inj hh)
      simp [h, this]
  | remove x => simp [Callback.isFadeOf]

theorem isRemoveOf_eq (e : Nat) (c : Callback) :
    Callback.isRemoveOf (fun x => x == e) c = (c == Callback.remove e) := by
  cases c with
  | fade x => simp [Callback.isRemoveOf]
  | remove x =>
    simp only [Callback.isRemoveOf]
    by_cases h : x = e
    · subst h
      simp
    · have : ¬ Callback.remove x = Callback.remove e := fun hh => h (Callback.remove.inj hh)
      simp [h, this]

theorem countP_fade_remove (l : List Callback) :
    l.countP (Callback.isFadeOf fun _ => true) + l.countP (Callback.isRemoveOf fun _ => true)
      = l.length := by
  induction l with
  | nil => rfl
  | cons c l ih =>
    cases c <;> simp [List.countP_cons, Callback.isFadeOf, Callback.isRemoveOf] <;> omega

/-- In every execution at most two timers per matched element are created, and
every created timer is pending or has fired. -/
theorem CountInv.total {S : List Nat} {s : State} (h : CountInv S s) :
    s.nextId ≤ 1 + 2 * S.length := by
  have h1 := h.count_fade (fun _ => true)
  have h2 := h.count_remove (fun _ => true)
  have h3 := countP_fade_remove (s.timers.map Timer.cb)
  have h4 := countP_fade_remove (s.fired.map (fun p => p.2.cb))
  have h5 := h.created
  have h6 : S.countP (fun _ => true) = S.length := by simp
  simp only [List.length_map] at h3 h4
  omega
theorem count_le_one_of_nodup (doc : Forest) (hnd : doc.ids.Nodup) (e : Nat) :
    (querySelectorAll "alert" doc).count e ≤ 1 :=
  List.nodup_iff_count_le_one.mp (hnd.sublist (querySelectorAll_sublist "alert" doc)) e

theorem CountInv.per_element {S : List Nat} {s : State} (h : CountInv S s) (e : Nat) :
    (s.timers.map Timer.cb).count (.fade e) + (s.fired.map (fun p => p.2.cb)).count (.fade e)
      = S.count e ∧
    (s.timers.map Timer.cb).count (.remove e)
      + (s.fired.map (fun p => p.2.cb)).count (.remove e)
      = (s.fired.map (fun p => p.2.cb)).count (.fade e) := by
  have h1 := h.count_fade (fun x => x == e)
  have h2 := h.count_remove (fun x => x == e)
  have e1 : Callback.isFadeOf (fun x => x == e) = fun c => c == Callback.fade e :=
    funext (isFadeOf_eq e)
  have e2 : Callback.isRemoveOf (fun x => x == e) = fun c => c == Callback.remove e :=
    funext (isRemoveOf_eq e)
  rw [e1] at h1 h2
  rw [e2] at h2
  exact ⟨h1, h2⟩

theorem Ordered.split {d : Nat} {l : List (Nat × Timer)} (h : Ordered d l)
    (newer older : List (Nat × Timer)) (p : Nat × Timer) (hl : l = newer ++ p :: older)
    (e : Nat) (hp : p.2.cb = .remove e) :
    ∃ q ∈ older, q.2.cb = .fade e ∧ q.1 + d ≤ p.1 := by
  induction newer generalizing l with
  | nil =>
    rw [hl, List.nil_append] at h
    exact h.1 e hp
  | cons a newer ih =>
    rw [hl, List.cons_append] at h
    exact ih h.2 rfl

theorem phase_of_fired_nil (e : Nat) (s : State) (h : s.fired = []) : phase e s = .visible := by
  simp [phase, hasFired, h]

/-- Claim C1. Every element matched by the selector when the handler runs at
`t = 0` gets a fade timer with delay exactly 5000 ms.  In every execution, as long
as the clock shows less than 5000 ms no callback has run, the timer table is the
one the handler left, the element is in state visible and (when no foreign code
touched the page) the page is the loaded page; the fade callback of the element
runs at a time of at least 5000 ms.  This holds for any script of the family, in
particular for `main_js` and `alerts_js`. -/
theorem C1_fade_not_before_first_delay (σ : Script) (doc : Forest) (e : Nat)
    (he : e ∈ querySelectorAll "alert" doc) :
    (load σ doc).now = 0 ∧
    (∃ tm ∈ (load σ doc).timers, tm.cb = .fade e) ∧
    (∀ tm ∈ (load σ doc).timers, tm.due = (load σ doc).now + 5000) ∧
    (∀ (evs : List Event) (s : State), run σ evs (load σ doc) = some s →
      (s.now < 5000 →
        s.fired = [] ∧ s.timers = (load σ doc).timers ∧ phase e s = .visible ∧
        ((∀ ev ∈ evs, ev.isOwn = true) → s.page = doc)) ∧
      (∀ p ∈ s.fired, p.2.cb = .fade e → 5000 ≤ p.1) ∧
      (∀ tm ∈ s.timers, tm.cb = .fade e → tm.due = 5000)) := by
  refine ⟨by rw [load_eq], ?_, ?_, ?_⟩
  · rw [load_eq]
    simp only
    have : Callback.fade e ∈ (mkTimers Callback.fade firstDelay 1
        (querySelectorAll "alert" doc)).map Timer.cb := by
      rw [mkTimers_map_cb]
      exact List.mem_map_of_mem _ he
    obtain ⟨tm, htm, hcb⟩ := List.mem_map.mp this
    exact ⟨tm, htm, hcb⟩
  · intro tm htm
    rw [load_eq] at htm ⊢
    exact (mkTimers_mem _ _ _ _ tm htm).1
  · intro evs s hrun
    have hT := timeInv_run σ doc evs s hrun
    refine ⟨?_, ?_, ?_⟩
    · intro hnow
      have hnil : s.fired = [] := by
        cases hf : s.fired with
        | nil => rfl
        | cons p l =>
          have := hT.fired_time p (by rw [hf]; exact List.mem_cons_self _ _)
          have h1 := this.1
          have h3 := this.2.2.1
          simp only [firstDelay] at h3
          omega
      refine ⟨hnil, ?_, phase_of_fired_nil e s hnil, ?_⟩
      · rw [(hT.fresh hnil).1, load_eq]
      · intro hown
        exact (pageInv_run σ doc evs s hown hrun).unfired hnil
    · intro p hp _
      exact (hT.fired_time p hp).2.2.1
    · intro tm htm hcb
      exact hT.fade_due tm htm e hcb

theorem C1_fade_not_before_first_delay_witness :
    1 ∈ querySelectorAll "alert" twoAlerts ∧
    run alerts_js [.elapse 4999] (load alerts_js twoAlerts)
      = some { load alerts_js twoAlerts with now := 4999 } ∧
    ({ load alerts_js twoAlerts with now := 4999 } : State).page = twoAlerts :=
  ⟨by decide, by decide,
    ((C1_fade_not_before_first_delay alerts_js twoAlerts 1 (by decide)).2.2.2
      [.elapse 4999] { load alerts_js twoAlerts with now := 4999 } (by decide)).1
      (by decide) |>.2.2.2 (by decide)⟩

/-- Claim C2. In every execution (foreign page changes included) a pending removal
timer of an element was created by the fade callback of the same element and is
due exactly the fade duration after that callback ran; whenever the removal
callback of an element has run at time `t`, the fade callback of the same element
ran before it in the history, at a time `t₁` with `5000 ≤ t₁` and
`t₁ + fadeMs ≤ t`, so `5000 + fadeMs ≤ t` (5500 for `main_js`, 5300 for
`alerts_js`) and `t₁ < t` when the fade duration is positive; an element in state
removed has been put into fading.  When no foreign code touches the page, no
element leaves the page while the clock shows less than `5000 + fadeMs`. -/
theorem C2_removal_after_fade (σ : Script) (doc : Forest) (e : Nat) (evs : List Event)
    (s : State) (hrun : run σ evs (load σ doc) = some s) :
    (∀ tm ∈ s.timers, tm.cb = .remove e →
      ∃ q ∈ s.fired, q.2.cb = .fade e ∧ tm.due = q.1 + σ.fadeMs) ∧
    (∀ (newer older : List (Nat × Timer)) (t : Nat) (tm : Timer),
      s.fired = newer ++ (t, tm) :: older → tm.cb = .remove e →
      5000 + σ.fadeMs ≤ t ∧
      ∃ q ∈ older, q.2.cb = .fade e ∧ 5000 ≤ q.1 ∧ q.1 + σ.fadeMs ≤ t ∧
        (0 < σ.fadeMs → q.1 < t)) ∧
    (phase e s = .removed → hasFired (.fade e) s = true) ∧
    ((∀ ev ∈ evs, ev.isOwn = true) → s.now < 5000 + σ.fadeMs → s.page.ids = doc.ids) := by
  have hT := timeInv_run σ doc evs s hrun
  refine ⟨?_, ?_, ?_, ?_⟩
  · intro tm htm hcb
    obtain ⟨q, hq, h1, h2⟩ := hT.remove_due tm htm e hcb
    exact ⟨q, hq, h1, h2.symm⟩
  · intro newer older t tm hl hcb
    have hmem : (t, tm) ∈ s.fired := by
      rw [hl]
      exact List.mem_append_right _ (List.mem_cons_self _ _)
    have h4 := (hT.fired_time (t, tm) hmem).2.2.2 e hcb
    obtain ⟨q, hq, hq1, hq2⟩ := hT.ordered.split newer older (t, tm) hl e hcb
    have hqm : q ∈ s.fired := by
      rw [hl]
      exact List.mem_append_right _ (List.mem_cons_of_mem _ hq)
    have hq3 := (hT.fired_time q hqm).2.2.1
    simp only [firstDelay] at h4 hq3
    simp only at hq2
    exact ⟨h4, q, hq, hq1, hq3, hq2, fun hd => by omega⟩
  · intro hph
    have hrem : hasFired (.remove e) s = true := by
      unfold phase at hph
      by_contra hcon
      rw [if_neg hcon] at hph
      split at hph <;> cases hph
    obtain ⟨p, hp, hcb⟩ := (hasFired_iff _ _).mp hrem
    obtain ⟨newer, older, hl⟩ := List.append_of_mem hp
    obtain ⟨q, hq, hq1, _⟩ := hT.ordered.split newer older p hl e hcb
    have hqm : q ∈ s.fired := by
      rw [hl]
      exact List.mem_append_right _ (List.mem_cons_of_mem _ hq)
    exact (hasFired_iff _ _).mpr ⟨q, hqm, hq1⟩
  · intro hown hnow
    apply (pageInv_run σ doc evs s hown hrun).unremoved
    intro p hp e' hcb
    have h1 := (hT.fired_time p hp).1
    have h4 := (hT.fired_time p hp).2.2.2 e' hcb
    simp only [firstDelay] at h4
    omega

theorem C2_removal_after_fade_witness :
    run alerts_js
        [.elapse 5000, .fire ⟨1, 5000, .fade 1⟩, .elapse 300, .fire ⟨3, 5300, .remove 1⟩]
        (load alerts_js twoAlerts)
      = some
        { now := 5300
          page := .node (plain 2 ["alert"]) .nil .nil
          timers := [⟨2, 5000, .fade 2⟩]
          nextId := 4
          fired := [(5300, ⟨3, 5300, .remove 1⟩), (5000, ⟨1, 5000, .fade 1⟩)]
          console := []
          queries := 1 } ∧
    5000 + alerts_js.fadeMs ≤ 5300 :=
  ⟨by decide,
    ((C2_removal_after_fade alerts_js twoAlerts 1 _ _
      (show run alerts_js
        [.elapse 5000, .fire ⟨1, 5000, .fade 1⟩, .elapse 300, .fire ⟨3, 5300, .remove 1⟩]
        (load alerts_js twoAlerts)
      = some
        { now := 5300
          page := .node (plain 2 ["alert"]) .nil .nil
          timers := [⟨2, 5000, .fade 2⟩]
          nextId := 4
          fired := [(5300, ⟨3, 5300, .remove 1⟩), (5000, ⟨1, 5000, .fade 1⟩)]
          console := []
          queries := 1 } by decide)).2.1
      [] [(5000, ⟨1, 5000, .fade 1⟩)] 5300 ⟨3, 5300, .remove 1⟩ rfl rfl).1⟩

/-- What the page shows of a matched element along the punctual run. -/
theorem traj_observe (σ : Script) (doc : Forest) (e : Nat)
    (he : e ∈ querySelectorAll "alert" doc) (t : Nat) :
    observe σ.technique e (runUntil σ t (load σ doc)).page
      = if t < 5000 then observe σ.technique e doc
        else if t < 5000 + σ.fadeMs then .fading else .removed := by
  have hl := load_timers σ doc
  have hn : (load σ doc).now ≤ 5000 := by rw [load_now]; exact Nat.zero_le _
  by_cases h1 : t < 5000
  · rw [if_pos h1, (traj_early σ 5000 1 t _ (load σ doc) hl h1).1, load_page]
  · rw [if_neg h1]
    by_cases h2 : t < 5000 + σ.fadeMs
    · rw [if_pos h2, (traj_mid σ 5000 1 t _ (load σ doc) hl hn (by omega) h2).1, load_page]
      exact observe_fading _ _ _
        (find?_fadeAll_of_mem _ _ e he doc (querySelectorAll_subset _ doc e he))
    · rw [if_neg h2, (traj_late σ 5000 1 t _ (load σ doc) hl hn (by omega)).1, load_page,
        observe_removed]
      exact not_mem_ids_removeAll _ _ e he

/-- Claim C3. For a page with any number of matched elements and no foreign code,
with timers firing when due: at every time from 5000 ms until the fade duration
has passed (in particular once the timers due at 5000 ms have fired) every matched
element is in the page and fading and no timer due by then is pending; at every
time from `5000 + fadeMs` on (5300 for `alerts_js`, 5500 for `main_js`) every
matched element is absent from the page and no timer is pending.  Running to
5000 ms first and then on gives the same state. -/
theorem C3_all_alerts_fade_then_vanish (σ : Script) (doc : Forest) (hd : 0 < σ.fadeMs) :
    (∀ t, 5000 ≤ t → t < 5000 + σ.fadeMs →
      (∀ tm ∈ (runUntil σ t (load σ doc)).timers, t < tm.due) ∧
      ∀ e ∈ querySelectorAll "alert" doc,
        e ∈ (runUntil σ t (load σ doc)).page.ids ∧
        observe σ.technique e (runUntil σ t (load σ doc)).page = .fading ∧
        phase e (runUntil σ t (load σ doc)) = .fading) ∧
    (∀ t, 5000 + σ.fadeMs ≤ t →
      (runUntil σ t (load σ doc)).timers = [] ∧
      (runUntil σ t (runUntil σ 5000 (load σ doc)) = runUntil σ t (load σ doc)) ∧
      ∀ e ∈ querySelectorAll "alert" doc,
        e ∉ (runUntil σ t (load σ doc)).page.ids ∧
        observe σ.technique e (runUntil σ t (load σ doc)).page = .removed ∧
        phase e (runUntil σ t (load σ doc)) = .removed) := by
  have hl := load_timers σ doc
  have hn : (load σ doc).now ≤ 5000 := by rw [load_now]; exact Nat.zero_le _
  refine ⟨?_, ?_⟩
  · intro t h1 h2
    refine ⟨runUntil_quiescent σ t _, ?_⟩
    intro e he
    have hobs := traj_observe σ doc e he t
    rw [if_neg (by omega), if_pos h2] at hobs
    have hph := traj_phase σ 5000 1 t _ (load σ doc) hl hn (load_fired σ doc) e he
    rw [if_neg (by omega), if_pos h2] at hph
    refine ⟨?_, hobs, hph⟩
    by_contra hcon
    rw [(observe_removed _ _ _).mpr hcon] at hobs
    cases hobs
  · intro t h1
    refine ⟨(traj_late σ 5000 1 t _ (load σ doc) hl hn h1).2.1, runUntil_twice σ doc hd t h1, ?_⟩
    intro e he
    have hobs := traj_observe σ doc e he t
    rw [if_neg (by omega), if_neg (by omega)] at hobs
    have hph := traj_phase σ 5000 1 t _ (load σ doc) hl hn (load_fired σ doc) e he
    rw [if_neg (by omega), if_neg (by omega)] at hph
    exact ⟨(observe_removed _ _ _).mp hobs, hobs, hph⟩

theorem C3_all_alerts_fade_then_vanish_witness :
    0 < alerts_js.fadeMs ∧
    querySelectorAll "alert" twoAlerts = [1, 2] ∧
    observe alerts_js.technique 2 (runUntil alerts_js 5000 (load alerts_js twoAlerts)).page
      = .fading ∧
    (runUntil alerts_js 5300 (load alerts_js twoAlerts)).page = .nil ∧
    (runUntil alerts_js 5300 (load alerts_js twoAlerts)).timers = [] :=
  ⟨by decide, by decide,
    (((C3_all_alerts_fade_then_vanish alerts_js twoAlerts (by decide)).1 5000
      (by decide) (by decide)).2 2 (by decide)).2.1,
    by decide,
    ((C3_all_alerts_fade_then_vanish alerts_js twoAlerts (by decide)).2 5300 (by decide)).1⟩

/-- Claim C8. With timers firing when due, the state of a matched element at time
`t` is visible before 5000 ms, fading from 5000 ms until the fade duration has
passed, and removed from then on, whatever else the page contains: for two pages
that both contain the matched element `e` its state at every time is the same, it
is in one page exactly when it is in the other, and what the pages show of it
agrees whenever they showed the same at load; all elements matched by one scan
are in the same state at every time. -/
theorem C8_trajectory_independent (σ : Script) (doc₁ doc₂ : Forest) (e : Nat)
    (h₁ : e ∈ querySelectorAll "alert" doc₁) (h₂ : e ∈ querySelectorAll "alert" doc₂)
    (t : Nat) :
    phase e (runUntil σ t (load σ doc₁)) = phase e (runUntil σ t (load σ doc₂)) ∧
    phase e (runUntil σ t (load σ doc₁))
      = (if t < 5000 then .visible else if t < 5000 + σ.fadeMs then .fading else .removed) ∧
    (e ∈ (runUntil σ t (load σ doc₁)).page.ids ↔ t < 5000 + σ.fadeMs) ∧
    (e ∈ (runUntil σ t (load σ doc₁)).page.ids ↔ e ∈ (runUntil σ t (load σ doc₂)).page.ids) ∧
    (observe σ.technique e doc₁ = observe σ.technique e doc₂ →
      observe σ.technique e (runUntil σ t (load σ doc₁)).page
        = observe σ.technique e (runUntil σ t (load σ doc₂)).page) ∧
    (∀ e' ∈ querySelectorAll "alert" doc₁,
      phase e' (runUntil σ t (load σ doc₁)) = phase e (runUntil σ t (load σ doc₁))) := by
  have hph : ∀ doc x, x ∈ querySelectorAll "alert" doc →
      phase x (runUntil σ t (load σ doc))
        = (if t < 5000 then .visible else if t < 5000 + σ.fadeMs then .fading else .removed) :=
    fun doc x hx => traj_phase σ 5000 1 t _ (load σ doc) (load_timers σ doc)
      (by rw [load_now]; exact Nat.zero_le _) (load_fired σ doc) x hx
  have hin : ∀ doc, e ∈ querySelectorAll "alert" doc →
      (e ∈ (runUntil σ t (load σ doc)).page.ids ↔ t < 5000 + σ.fadeMs) := by
    intro doc he
    have hobs := traj_observe σ doc e he t
    have hdoc : observe σ.technique e doc ≠ .removed := fun hh =>
      (observe_removed _ _ _).mp hh (querySelectorAll_subset _ doc e he)
    constructor
    · intro hmem
      by_contra hcon
      rw [if_neg (by omega), if_neg hcon] at hobs
      exact (observe_removed _ _ _).mp hobs hmem
    · intro hlt
      by_contra hcon
      rw [(observe_removed _ _ _).mpr hcon] at hobs
      by_cases h1 : t < 5000
      · rw [if_pos h1] at hobs
        exact hdoc hobs.symm
      · rw [if_neg h1, if_pos hlt] at hobs
        cases hobs
  refine ⟨by rw [hph doc₁ e h₁, hph doc₂ e h₂], hph doc₁ e h₁, hin doc₁ h₁,
    (hin doc₁ h₁).trans (hin doc₂ h₂).symm, ?_, fun e' he' => by rw [hph doc₁ e' he', hph doc₁ e h₁]⟩
  intro hobs
  rw [traj_observe σ doc₁ e h₁ t, traj_observe σ doc₂ e h₂ t, hobs]

theorem C8_trajectory_independent_witness :
    1 ∈ querySelectorAll "alert" twoAlerts ∧ 1 ∈ querySelectorAll "alert" alertWithButton ∧
    phase 1 (runUntil main_js 5200 (load main_js twoAlerts))
      = phase 1 (runUntil main_js 5200 (load main_js alertWithButton)) :=
  ⟨by decide, by decide,
    (C8_trajectory_independent main_js twoAlerts alertWithButton 1 (by decide) (by decide)
      5200).1⟩

/-- Claim C4 as stated, refuted. In `main_js` on the page `alertWithButton` the
close button `2` is in the page and does not match the selector, yet after the
two timers of the alert `1` have fired the page consists of the paragraph `3`
alone: the button has left the page with the alert that contains it. -/
theorem C4_counterexample :
    2 ∈ alertWithButton.ids ∧
    2 ∉ querySelectorAll "alert" alertWithButton ∧
    (run main_js
        [.elapse 5000, .fire ⟨1, 5000, .fade 1⟩, .elapse 500, .fire ⟨2, 5500, .remove 1⟩]
        (load main_js alertWithButton)).map State.page
      = some (.node (plain 3 ["lead"]) .nil .nil) ∧
    (runUntil main_js 5500 (load main_js alertWithButton)).page
      = .node (plain 3 ["lead"]) .nil .nil ∧
    2 ∉ (Forest.node (plain 3 ["lead"]) .nil .nil).ids := by
  decide

/-- Claim C4 as amended. For a page with distinct element identities and an element
`x` that does not match the selector: no timer is created for `x`; in every state
reached by the script's own events no pending or fired timer concerns `x`, `x` is
in the page whenever it is in the loaded page with the matched elements and their
subtrees deleted, while `x` is in the page its class list and style are those of
the loaded page, the elements of the page are in the order of the loaded page, and
deleting the matched elements with their subtrees from the page gives what it
gives on the loaded page; once the timers have fired punctually the page is the
loaded page with the matched elements and their subtrees deleted. -/
theorem C4_unmatched_elements_untouched (σ : Script) (doc : Forest) (hnd : doc.ids.Nodup)
    (x : Nat) (hx : x ∉ querySelectorAll "alert" doc) :
    (∀ tm ∈ (load σ doc).timers, tm.cb.target ≠ x) ∧
    (∀ (evs : List Event) (s : State), (∀ ev ∈ evs, ev.isOwn = true) →
      run σ evs (load σ doc) = some s →
      (∀ tm ∈ s.timers, tm.cb.target ≠ x) ∧
      (∀ p ∈ s.fired, p.2.cb.target ≠ x) ∧
      (x ∈ (removeAll (querySelectorAll "alert" doc) doc).ids → x ∈ s.page.ids) ∧
      (x ∈ s.page.ids → s.page.find? x = doc.find? x) ∧
      List.Sublist s.page.ids doc.ids ∧
      removeAll (querySelectorAll "alert" doc) s.page
        = removeAll (querySelectorAll "alert" doc) doc) ∧
    (∀ t, 5000 + σ.fadeMs ≤ t →
      (runUntil σ t (load σ doc)).page = removeAll (querySelectorAll "alert" doc) doc) := by
  have hinit := timeInv_load σ doc
  refine ⟨fun tm htm hh => hx (hh ▸ hinit.target_pending tm htm), ?_, ?_⟩
  · intro evs s hown hrun
    have hT := timeInv_run σ doc evs s hrun
    have hP := pageInv_run σ doc evs s hown hrun
    have hA := attrInv_run σ doc hnd evs s hown hrun
    refine ⟨fun tm htm hh => hx (hh ▸ hT.target_pending tm htm),
      fun p hp hh => hx (hh ▸ hT.target_fired p hp), ?_, ?_, hP.sublist, hP.outside⟩
    · intro hmem
      rw [← hP.outside] at hmem
      exact (ids_removeAll_sublist _ _).subset hmem
    · intro hmem
      have hnf : hasFired (.fade x) s = false := by
        cases hf : hasFired (.fade x) s with
        | false => rfl
        | true =>
          obtain ⟨p, hp, hcb⟩ := (hasFired_iff _ _).mp hf
          have := hT.target_fired p hp
          rw [hcb] at this
          exact absurd this hx
      cases hfind : s.page.find? x with
      | none => exact absurd hmem ((Forest.find?_eq_none_iff x _).mp hfind)
      | some el => exact (hA.kept x el hnf hfind).symm
  · intro t ht
    rw [(traj_late σ 5000 1 t _ (load σ doc) (load_timers σ doc)
      (by rw [load_now]; exact Nat.zero_le _) ht).1, load_page]
    exact removeAll_fadeAll _ _ _ (fun _ h => h) doc

theorem C4_unmatched_elements_untouched_witness :
    alertWithButton.ids.Nodup ∧ 3 ∉ querySelectorAll "alert" alertWithButton ∧
    (runUntil main_js 5500 (load main_js alertWithButton)).page
      = removeAll (querySelectorAll "alert" alertWithButton) alertWithButton :=
  ⟨by decide, by decide,
    (C4_unmatched_elements_untouched main_js alertWithButton (by decide) 3 (by decide)).2.2
      5500 (by decide)⟩

/-- Claim C5. The removal step is idempotent and does nothing for an element that is
not in the page; it is a total function, so there is no error result.  In any
state in which `e` is not in the page, the fade callback and the removal callback
of `e` leave the page as it is, and a due timer of `e` fires.  When foreign code
detaches the matched element `e` before 5000 ms, the timer table is untouched, and
with timers firing when due the fade callback of `e` has run at every time from
5000 ms on, its removal callback at every time from `5000 + fadeMs` on, when no
timer is left pending. -/
theorem C5_removal_of_absent_element (σ : Script) (p : Forest) (e : Nat) :
    (p.remove e).remove e = p.remove e ∧
    (e ∉ p.ids → p.remove e = p) ∧
    (∀ s : State, e ∉ s.page.ids →
      (runCallback σ (.fade e) s).page = s.page ∧
      (runCallback σ (.remove e) s).page = s.page ∧
      ∀ tm ∈ s.timers, tm.due ≤ s.now → tm.cb.target = e →
        ∃ s', step σ (.fire tm) s = some s' ∧ s'.page = s.page) ∧
    (∀ (doc : Forest) (t₀ : Nat), e ∈ querySelectorAll "alert" doc → t₀ < 5000 →
      ∃ s₁, run σ [.elapse t₀, .other (doc.remove e)] (load σ doc) = some s₁ ∧
        s₁.timers = (load σ doc).timers ∧
        s₁.page = doc.remove e ∧
        (∀ t, e ∉ (runUntil σ t s₁).page.ids) ∧
        (∀ t, 5000 ≤ t → hasFired (.fade e) (runUntil σ t s₁) = true) ∧
        (∀ t, 5000 + σ.fadeMs ≤ t →
          hasFired (.remove e) (runUntil σ t s₁) = true ∧ (runUntil σ t s₁).timers = [])) := by
  refine ⟨Forest.remove_remove_self e p, Forest.remove_of_not_mem e p, ?_, ?_⟩
  · intro s hs
    have h1 : (runCallback σ (.fade e) s).page = s.page := by
      simp only [runCallback, setTimeout]
      exact Forest.update_of_not_mem e _ _ hs
    have h2 : (runCallback σ (.remove e) s).page = s.page := by
      simp only [runCallback]
      exact Forest.remove_of_not_mem e _ hs
    refine ⟨h1, h2, ?_⟩
    intro tm htm hdue htgt
    refine ⟨fireTimer σ tm s, ?_, ?_⟩
    · simp only [step]
      rw [if_pos ⟨htm, hdue⟩]
    · rw [fireTimer_eq]
      simp only
      cases hcb : tm.cb with
      | fade a =>
        rw [hcb] at htgt
        simp only [Callback.target] at htgt
        subst htgt
        exact Forest.update_of_not_mem _ _ _ hs
      | remove a =>
        rw [hcb] at htgt
        simp only [Callback.target] at htgt
        subst htgt
        exact Forest.remove_of_not_mem _ _ hs
  · intro doc t₀ he ht₀
    refine ⟨{ load σ doc with now := (load σ doc).now + t₀, page := doc.remove e }, rfl, rfl,
      rfl, ?_, ?_, ?_⟩
    all_goals
      have hs : ({ load σ doc with now := (load σ doc).now + t₀, page := doc.remove e }
          : State).timers = mkTimers Callback.fade 5000 1 (querySelectorAll "alert" doc) :=
        load_timers σ doc
      have hn : ({ load σ doc with now := (load σ doc).now + t₀, page := doc.remove e }
          : State).now ≤ 5000 := by
        show (load σ doc).now + t₀ ≤ 5000
        rw [load_now]
        omega
      have hf : ({ load σ doc with now := (load σ doc).now + t₀, page := doc.remove e }
          : State).fired = [] := load_fired σ doc
    · intro t
      by_cases h1 : t < 5000
      · rw [(traj_early σ 5000 1 t _ _ hs h1).1]
        exact Forest.not_mem_ids_remove e doc
      · by_cases h2 : t < 5000 + σ.fadeMs
        · rw [(traj_mid σ 5000 1 t _ _ hs hn (by omega) h2).1, ids_fadeAll]
          exact Forest.not_mem_ids_remove e doc
        · rw [(traj_late σ 5000 1 t _ _ hs hn (by omega)).1]
          intro hmem
          have := (ids_removeAll_sublist _ _).subset hmem
          rw [ids_fadeAll] at this
          exact Forest.not_mem_ids_remove e doc this
    · intro t ht
      exact (traj_fired σ 5000 1 t _ _ hs hn hf e).1.mpr ⟨ht, he⟩
    · intro t ht
      exact ⟨(traj_fired σ 5000 1 t _ _ hs hn hf e).2.mpr ⟨ht, he⟩,
        (traj_late σ 5000 1 t _ _ hs hn ht).2.1⟩

theorem C5_removal_of_absent_element_witness :
    1 ∈ querySelectorAll "alert" twoAlerts ∧
    ∃ s₁, run alerts_js [.elapse 2000, .other (twoAlerts.remove 1)] (load alerts_js twoAlerts)
        = some s₁ ∧
      s₁.timers = (load alerts_js twoAlerts).timers ∧
      hasFired (.fade 1) (runUntil alerts_js 5000 s₁) = true ∧
      hasFired (.remove 1) (runUntil alerts_js 5300 s₁) = true := by
  obtain ⟨s₁, h1, h2, _, _, h5, h6⟩ :=
    (C5_removal_of_absent_element alerts_js twoAlerts 1).2.2.2 twoAlerts 2000
      (by decide) (by decide)
  exact ⟨by decide, s₁, h1, h2, h5 5000 (by decide), (h6 5300 (by decide)).1⟩

/-- From any state whose timers concern matched elements only, the script's own
events leave everything outside the matched elements as it is: deleting the
matched elements with their subtrees gives the same page before and after, no
element is added or reordered, and (for distinct identities) an unmatched element
still in the page is unchanged. -/
theorem own_run_frame (σ : Script) (S : List Nat) (s₀ : State) (x : Nat) (hx : x ∉ S) :
    ∀ (evs : List Event) (s : State), (∀ ev ∈ evs, ev.isOwn = true) → TimeInv σ S s₀ →
      run σ evs s₀ = some s →
      TimeInv σ S s ∧
      removeAll S s.page = removeAll S s₀.page ∧
      List.Sublist s.page.ids s₀.page.ids ∧
      (s₀.page.ids.Nodup → x ∈ s.page.ids → s.page.find? x = s₀.page.find? x) := by
  intro evs s hown hT hrun
  refine run_invariant_own σ
    (fun s => TimeInv σ S s ∧ removeAll S s.page = removeAll S s₀.page ∧
      List.Sublist s.page.ids s₀.page.ids ∧
      (s₀.page.ids.Nodup → x ∈ s.page.ids → s.page.find? x = s₀.page.find? x))
    ?_ ?_ evs s₀ s hown ⟨hT, rfl, List.Sublist.refl _, fun _ _ => rfl⟩ hrun
  · intro st dt h
    exact ⟨timeInv_elapse σ S st dt h.1, h.2.1, h.2.2.1, h.2.2.2⟩
  · intro st tm h htm hdue
    obtain ⟨h1, h2, h3, h4⟩ := h
    have htgt := h1.target_pending tm htm
    have hfid := fadeElement_id σ.technique
    have hpage : (fireTimer σ tm st).page = tm.cb.onPage σ.technique st.page := by
      rw [fireTimer_eq]
    refine ⟨timeInv_fire σ S st tm h1 htm hdue, ?_, ?_, ?_⟩
    · rw [hpage]
      cases hcb : tm.cb with
      | fade e =>
        rw [hcb] at htgt
        simp only [Callback.onPage]
        rw [removeAll_update S e htgt _ hfid]
        exact h2
      | remove e =>
        rw [hcb] at htgt
        simp only [Callback.onPage]
        rw [removeAll_remove S e htgt]
        exact h2
    · rw [hpage]
      cases hcb : tm.cb with
      | fade e =>
        simp only [Callback.onPage]
        rw [Forest.ids_update _ _ hfid]
        exact h3
      | remove e =>
        simp only [Callback.onPage]
        exact (Forest.ids_remove_sublist e st.page).trans h3
    · intro hnd hmem
      rw [hpage] at hmem ⊢
      cases hcb : tm.cb with
      | fade e =>
        rw [hcb] at htgt hmem
        simp only [Callback.onPage] at hmem ⊢
        have hne : ¬ x = e := fun hh => hx (hh ▸ htgt)
        rw [Forest.ids_update _ _ hfid] at hmem
        rw [Forest.find?_update _ _ _ hfid]
        simp only [if_neg hne, Option.map_id']
        exact h4 hnd hmem
      | remove e =>
        rw [hcb] at hmem
        simp only [Callback.onPage] at hmem ⊢
        rw [Forest.find?_remove x e st.page (hnd.sublist h3) hmem]
        exact h4 hnd ((Forest.ids_remove_sublist e st.page).subset hmem)

/-- Claim C6 as stated, refuted. In `alerts_js` on the page `twoAlerts`, foreign code
inserts at 1000 ms the element `9` inside the alert `1`; the scan did not match
`9`.  After the fade callback of `1` the element `9` is still in the page; after
the removal callback of `1` at 5300 ms the page consists of the alert `2` alone:
the script has taken `9` off the page together with the alert that contains it. -/
theorem C6_counterexample :
    9 ∉ querySelectorAll "alert" twoAlerts ∧
    9 ∈ nestedLate.ids ∧
    (run alerts_js
        [.elapse 1000, .other nestedLate, .elapse 4000, .fire ⟨1, 5000, .fade 1⟩, .elapse 300]
        (load alerts_js twoAlerts)).map (fun s => decide (9 ∈ s.page.ids)) = some true ∧
    (run alerts_js
        [.elapse 1000, .other nestedLate, .elapse 4000, .fire ⟨1, 5000, .fade 1⟩, .elapse 300,
          .fire ⟨3, 5300, .remove 1⟩]
        (load alerts_js twoAlerts)).map State.page
      = some (.node (plain 2 ["alert"]) .nil .nil) ∧
    9 ∉ (Forest.node (plain 2 ["alert"]) .nil .nil).ids := by
  decide

/-- Claim C6 as amended. The handler performs one selector query, and in every
execution (foreign code may change the page at any time) the query count stays
one.  For an element `x` that the scan did not match, for instance one inserted
later, matching the selector or not: no pending timer and no callback that has run
concerns `x`, so neither the fade step nor the removal step is ever applied to
`x`; whichever timer fires next concerns a matched element other than `x`, a fade
callback leaves `x` and the set of elements as they are, a removal callback
detaches a matched element `e ≠ x`, and after either `x` is still in the page
when it is in the page with the matched elements and their subtrees deleted (that
is, when it does not lie inside a matched element).  When foreign code sets the
page to `p` and the script's own events follow, `x` is in the page afterwards
whenever it does not lie inside a matched element in `p`, and while it is in the
page it is the element of `p` unchanged; it leaves the page only together with a
matched element that contains it. -/
theorem C6_later_elements_untargeted (σ : Script) (doc : Forest) (evs : List Event)
    (s : State) (hrun : run σ evs (load σ doc) = some s) (x : Nat)
    (hx : x ∉ querySelectorAll "alert" doc) :
    (load σ doc).queries = 1 ∧
    s.queries = 1 ∧
    (∀ tm ∈ s.timers, tm.cb.target ≠ x) ∧
    (∀ p ∈ s.fired, p.2.cb.target ≠ x) ∧
    (∀ tm ∈ s.timers,
      tm.cb.target ∈ querySelectorAll "alert" doc ∧
      (x ∈ (removeAll (querySelectorAll "alert" doc) s.page).ids →
        x ∈ (fireTimer σ tm s).page.ids) ∧
      (∀ e, tm.cb = .fade e →
        (fireTimer σ tm s).page.find? x = s.page.find? x ∧
        (fireTimer σ tm s).page.ids = s.page.ids) ∧
      (∀ e, tm.cb = .remove e →
        e ≠ x ∧ (fireTimer σ tm s).page = s.page.remove e ∧
        (s.page.ids.Nodup → x ∈ (s.page.remove e).ids →
          (s.page.remove e).find? x = s.page.find? x))) ∧
    (∀ (p : Forest) (evs₂ : List Event) (s₂ : State), (∀ ev ∈ evs₂, ev.isOwn = true) →
      run σ (evs ++ .other p :: evs₂) (load σ doc) = some s₂ →
      s₂.queries = 1 ∧
      (∀ tm ∈ s₂.timers, tm.cb.target ≠ x) ∧
      (∀ q ∈ s₂.fired, q.2.cb.target ≠ x) ∧
      removeAll (querySelectorAll "alert" doc) s₂.page
        = removeAll (querySelectorAll "alert" doc) p ∧
      List.Sublist s₂.page.ids p.ids ∧
      (x ∈ (removeAll (querySelectorAll "alert" doc) p).ids → x ∈ s₂.page.ids) ∧
      (p.ids.Nodup → x ∈ s₂.page.ids → s₂.page.find? x = p.find? x)) := by
  have hT := timeInv_run σ doc evs s hrun
  refine ⟨by rw [load_eq], hT.queries, fun tm htm hh => hx (hh ▸ hT.target_pending tm htm),
    fun p hp hh => hx (hh ▸ hT.target_fired p hp), ?_, ?_⟩
  · intro tm htm
    have htgt := hT.target_pending tm htm
    refine ⟨htgt, ?_, ?_, ?_⟩
    · intro hmem
      rw [fireTimer_eq]
      simp only
      cases hcb : tm.cb with
      | fade e =>
        simp only [Callback.onPage]
        rw [Forest.ids_update _ _ (fadeElement_id _)]
        exact (ids_removeAll_sublist _ _).subset hmem
      | remove e =>
        rw [hcb] at htgt
        simp only [Callback.onPage]
        rw [← removeAll_remove _ e htgt s.page] at hmem
        exact (ids_removeAll_sublist _ _).subset hmem
    · intro e hcb
      rw [hcb] at htgt
      have hne : ¬ x = e := fun hh => hx (hh ▸ htgt)
      rw [fireTimer_eq, hcb]
      simp only [Callback.onPage]
      refine ⟨?_, Forest.ids_update _ _ (fadeElement_id _) _⟩
      rw [Forest.find?_update _ _ _ (fadeElement_id _)]
      simp only [if_neg hne, Option.map_id']
    · intro e hcb
      rw [hcb] at htgt
      refine ⟨fun hh => hx (hh ▸ htgt), ?_, fun hnd hmem => Forest.find?_remove x e _ hnd hmem⟩
      rw [fireTimer_eq, hcb]
      rfl
  · intro p evs₂ s₂ hown hrun₂
    rw [run_append σ evs (.other p :: evs₂) _ s hrun] at hrun₂
    have hrun₃ : run σ evs₂ { s with page := p } = some s₂ := hrun₂
    obtain ⟨h1, h2, h3, h4⟩ := own_run_frame σ _ { s with page := p } x hx evs₂ s₂ hown
      (timeInv_other σ _ s p hT) hrun₃
    refine ⟨h1.queries, fun tm htm hh => hx (hh ▸ h1.target_pending tm htm),
      fun q hq hh => hx (hh ▸ h1.target_fired q hq), h2, h3, ?_, h4⟩
    intro hmem
    rw [← h2] at hmem
    exact (ids_removeAll_sublist _ _).subset hmem

theorem C6_later_elements_untargeted_witness :
    run alerts_js [.elapse 1000] (load alerts_js twoAlerts)
      = some { load alerts_js twoAlerts with now := 1000 } ∧
    9 ∉ querySelectorAll "alert" twoAlerts ∧
    run alerts_js
        ([.elapse 1000] ++ .other lateAlert ::
          [.elapse 4000, .fire ⟨1, 5000, .fade 1⟩, .fire ⟨2, 5000, .fade 2⟩, .elapse 300,
            .fire ⟨3, 5300, .remove 1⟩, .fire ⟨4, 5300, .remove 2⟩])
        (load alerts_js twoAlerts)
      = some
        { now := 5300
          page := .node (plain 9 ["alert"]) .nil .nil
          timers := []
          nextId := 5
          fired := [(5300, ⟨4, 5300, .remove 2⟩), (5300, ⟨3, 5300, .remove 1⟩),
            (5000, ⟨2, 5000, .fade 2⟩), (5000, ⟨1, 5000, .fade 1⟩)]
          console := []
          queries := 1 } ∧
    9 ∈ (Forest.node (plain 9 ["alert"]) .nil .nil).ids :=
  ⟨by decide, by decide, by decide,
    ((C6_later_elements_untargeted alerts_js twoAlerts [.elapse 1000]
      { load alerts_js twoAlerts with now := 1000 } (by decide) 9 (by decide)).2.2.2.2.2
      lateAlert
      [.elapse 4000, .fire ⟨1, 5000, .fade 1⟩, .fire ⟨2, 5000, .fade 2⟩, .elapse 300,
        .fire ⟨3, 5300, .remove 1⟩, .fire ⟨4, 5300, .remove 2⟩]
      { now := 5300
        page := .node (plain 9 ["alert"]) .nil .nil
        timers := []
        nextId := 5
        fired := [(5300, ⟨4, 5300, .remove 2⟩), (5300, ⟨3, 5300, .remove 1⟩),
          (5000, ⟨2, 5000, .fade 2⟩), (5000, ⟨1, 5000, .fade 1⟩)]
        console := []
        queries := 1 }
      (by decide) (by decide)).2.2.2.2.2.1 (by decide)⟩

theorem hasFired_mono_fire (σ : Script) (cb : Callback) (s : State) (tm : Timer)
    (h : hasFired cb s = true) : hasFired cb (fireTimer σ tm s) = true := by
  rw [hasFired_fireTimer, h, Bool.or_true]

theorem hasFired_mono_step (σ : Script) (cb : Callback) (ev : Event) (s s' : State)
    (hst : step σ ev s = some s') (h : hasFired cb s = true) : hasFired cb s' = true := by
  cases ev with
  | elapse dt =>
    rw [step_elapse] at hst
    cases hst
    exact h
  | fire tm =>
    obtain ⟨_, _, h3⟩ := step_fire σ tm s s' hst
    rw [h3]
    exact hasFired_mono_fire σ cb s tm h
  | other p =>
    rw [step_other] at hst
    cases hst
    exact h

theorem hasFired_mono_run (σ : Script) (cb : Callback) (evs : List Event) (s s' : State)
    (hrun : run σ evs s = some s') (h : hasFired cb s = true) : hasFired cb s' = true :=
  run_invariant σ (fun st => hasFired cb st = true) (fun _ _ hs => hs)
    (fun st tm hs _ _ => hasFired_mono_fire σ cb st tm hs) (fun _ _ hs => hs) evs s s' h hrun

theorem phase_rank_mono (e : Nat) (s s' : State)
    (h : ∀ cb, hasFired cb s = true → hasFired cb s' = true) :
    (phase e s).rank ≤ (phase e s').rank := by
  unfold phase
  by_cases h1 : hasFired (.remove e) s = true
  · rw [if_pos h1, if_pos (h _ h1)]
  · rw [if_neg h1]
    by_cases h2 : hasFired (.fade e) s = true
    · rw [if_pos h2, if_pos (h _ h2)]
      split <;> simp [Phase.rank]
    · rw [if_neg h2]
      simp [Phase.rank]

theorem phase_removed_iff (e : Nat) (s : State) :
    phase e s = .removed ↔ hasFired (.remove e) s = true := by
  unfold phase
  by_cases h1 : hasFired (.remove e) s = true
  · simp [h1]
  · rw [if_neg h1]
    constructor
    · intro h
      split at h <;> cases h
    · intro h
      exact absurd h h1

theorem observe_rank_update (k : Technique) (e a : Nat) (p : Forest) :
    (observe k e p).rank ≤ (observe k e (p.update a (fadeElement k))).rank := by
  unfold observe
  rw [Forest.find?_update _ _ _ (fadeElement_id k)]
  cases p.find? e with
  | none => simp
  | some el =>
    simp only [Option.map_some']
    by_cases hea : e = a
    · rw [if_pos hea, isFaded_fadeElement]
      simp only [if_true]
      split <;> simp [Phase.rank]
    · rw [if_neg hea]

theorem observe_rank_remove (k : Technique) (e a : Nat) (p : Forest) (hnd : p.ids.Nodup) :
    (observe k e p).rank ≤ (observe k e (p.remove a)).rank := by
  by_cases hmem : e ∈ (p.remove a).ids
  · unfold observe
    rw [Forest.find?_remove e a p hnd hmem]
  · rw [(observe_removed k e _).mpr hmem]
    cases observe k e p <;> simp [Phase.rank]

/-- Claim C7. With the order visible < fading < removed: every event maps the state
of every element to a state that is at least its previous state, and every timer
callback does the same for what the page shows of the element (for a page with
distinct identities) and adds no element to the page.  In every execution from a
loaded page with distinct identities the fade callback and the removal callback of
an element have each run at most once; once an element is removed no timer for it
is pending and it is removed in every later state. -/
theorem C7_state_monotone (σ : Script) (doc : Forest) (e : Nat) (evs : List Event)
    (s : State) (hnd : doc.ids.Nodup) (hrun : run σ evs (load σ doc) = some s) :
    (∀ (ev : Event) (s' : State), step σ ev s = some s' →
      (phase e s).rank ≤ (phase e s').rank) ∧
    (∀ (cb : Callback) (st : State), st.page.ids.Nodup →
      (observe σ.technique e st.page).rank
        ≤ (observe σ.technique e (runCallback σ cb st).page).rank ∧
      List.Sublist (runCallback σ cb st).page.ids st.page.ids) ∧
    (s.fired.map (fun p => p.2.cb)).count (.fade e) ≤ 1 ∧
    (s.fired.map (fun p => p.2.cb)).count (.remove e) ≤ 1 ∧
    (phase e s = .removed →
      (∀ tm ∈ s.timers, tm.cb.target ≠ e) ∧
      ∀ (evs' : List Event) (s' : State), run σ evs' s = some s' → phase e s' = .removed) := by
  have hC := (countInv_run σ doc evs s hrun).per_element e
  have hle := count_le_one_of_nodup doc hnd e
  refine ⟨?_, ?_, by omega, by omega, ?_⟩
  · intro ev s' hst
    exact phase_rank_mono e s s' (fun cb h => hasFired_mono_step σ cb ev s s' hst h)
  · intro cb st hst
    cases cb with
    | fade a =>
      simp only [runCallback, setTimeout]
      refine ⟨observe_rank_update _ e a st.page, ?_⟩
      rw [Forest.ids_update _ _ (fadeElement_id _)]
    | remove a =>
      simp only [runCallback]
      exact ⟨observe_rank_remove _ e a st.page hst, Forest.ids_remove_sublist a st.page⟩
  · intro hph
    have hrem := (phase_removed_iff e s).mp hph
    refine ⟨?_, ?_⟩
    · have hpos : 0 < (s.fired.map (fun p => p.2.cb)).count (.remove e) := by
        rw [List.count_pos_iff]
        obtain ⟨p, hp, hcb⟩ := (hasFired_iff _ _).mp hrem
        exact List.mem_map.mpr ⟨p, hp, hcb⟩
      have hf0 : (s.timers.map Timer.cb).count (.fade e) = 0 := by omega
      have hr0 : (s.timers.map Timer.cb).count (.remove e) = 0 := by omega
      intro tm htm htgt
      have hmem : tm.cb ∈ s.timers.map Timer.cb := List.mem_map_of_mem _ htm
      cases hcb : tm.cb with
      | fade a =>
        rw [hcb] at htgt hmem
        simp only [Callback.target] at htgt
        subst htgt
        exact (List.count_eq_zero.mp hf0) hmem
      | remove a =>
        rw [hcb] at htgt hmem
        simp only [Callback.target] at htgt
        subst htgt
        exact (List.count_eq_zero.mp hr0) hmem
    · intro evs' s' hrun'
      exact (phase_removed_iff e s').mpr (hasFired_mono_run σ _ evs' s s' hrun' hrem)

theorem C7_state_monotone_witness :
    twoAlerts.ids.Nodup ∧
    run alerts_js
        [.elapse 5000, .fire ⟨1, 5000, .fade 1⟩, .elapse 300, .fire ⟨3, 5300, .remove 1⟩]
        (load alerts_js twoAlerts)
      = some
        { now := 5300
          page := .node (plain 2 ["alert"]) .nil .nil
          timers := [⟨2, 5000, .fade 2⟩]
          nextId := 4
          fired := [(5300, ⟨3, 5300, .remove 1⟩), (5000, ⟨1, 5000, .fade 1⟩)]
          console := []
          queries := 1 } ∧
    ([Callback.remove 1, Callback.fade 1].count (.fade 1) ≤ 1) :=
  ⟨by decide, by decide,
    (C7_state_monotone alerts_js twoAlerts 1 _ _ (by decide)
      (show run alerts_js
        [.elapse 5000, .fire ⟨1, 5000, .fade 1⟩, .elapse 300, .fire ⟨3, 5300, .remove 1⟩]
        (load alerts_js twoAlerts)
      = some
        { now := 5300
          page := .node (plain 2 ["alert"]) .nil .nil
          timers := [⟨2, 5000, .fade 2⟩]
          nextId := 4
          fired := [(5300, ⟨3, 5300, .remove 1⟩), (5000, ⟨1, 5000, .fade 1⟩)]
          console := []
          queries := 1 } by decide)).2.2.1⟩

/-- Claim C9. Right after the handler has run on a page with `n` matched elements
exactly `n` timers are pending, the `n` timer handles `1 … n` have been handed out
and nothing has fired (for `n = 0` the timer table is empty); in every execution
every timer created so far is pending or has fired, no timer has fired twice and at
most `2n` timers have been created; when the timers have fired punctually
(any time from `5000 + fadeMs` on) exactly `2n` timers have been created, none is
pending, the history has `2n` entries with distinct timer handles, and each
element has as many fade entries and as many removal entries as the scan matched
it (one each). -/
theorem C9_timer_count (σ : Script) (doc : Forest) :
    (load σ doc).timers.length = (querySelectorAll "alert" doc).length ∧
    (load σ doc).nextId = 1 + (querySelectorAll "alert" doc).length ∧
    (load σ doc).fired = [] ∧
    (querySelectorAll "alert" doc = [] → (load σ doc).timers = []) ∧
    (∀ (evs : List Event) (s : State), run σ evs (load σ doc) = some s →
      s.nextId = 1 + s.timers.length + s.fired.length ∧
      s.nextId ≤ 1 + 2 * (querySelectorAll "alert" doc).length ∧
      (s.timers.map Timer.id ++ s.fired.map (fun p => p.2.id)).Nodup) ∧
    (∀ t, 5000 + σ.fadeMs ≤ t →
      (runUntil σ t (load σ doc)).nextId = 1 + 2 * (querySelectorAll "alert" doc).length ∧
      (runUntil σ t (load σ doc)).timers = [] ∧
      (runUntil σ t (load σ doc)).fired.length = 2 * (querySelectorAll "alert" doc).length ∧
      ((runUntil σ t (load σ doc)).fired.map (fun p => p.2.id)).Nodup ∧
      ∀ e,
        ((runUntil σ t (load σ doc)).fired.map (fun p => p.2.cb)).count (.fade e)
          = (querySelectorAll "alert" doc).count e ∧
        ((runUntil σ t (load σ doc)).fired.map (fun p => p.2.cb)).count (.remove e)
          = (querySelectorAll "alert" doc).count e) := by
  refine ⟨?_, load_nextId σ doc, load_fired σ doc, ?_, ?_, ?_⟩
  · rw [load_timers, mkTimers_length]
  · intro h
    rw [load_timers, h]
    rfl
  · intro evs s hrun
    have hC := countInv_run σ doc evs s hrun
    exact ⟨hC.created, hC.total, hC.id_nodup⟩
  · intro t ht
    obtain ⟨evs, _, hrun⟩ := runUntil_is_run σ t (load σ doc)
    have hC := countInv_run σ doc evs _ hrun
    have hl := traj_late σ 5000 1 t _ (load σ doc) (load_timers σ doc)
      (by rw [load_now]; exact Nat.zero_le _) ht
    have hcr := hC.created
    have hnd := hC.id_nodup
    rw [hl.2.1] at hcr hnd
    simp only [List.length_nil, List.map_nil, List.nil_append, Nat.add_zero] at hcr hnd
    have hnext : (runUntil σ t (load σ doc)).nextId
        = 1 + 2 * (querySelectorAll "alert" doc).length := by
      rw [hl.2.2.2.1, load_nextId]
      omega
    refine ⟨hnext, hl.2.1, by omega, hnd, ?_⟩
    intro e
    have h1 := hC.count_fade (fun x => x == e)
    have h2 := hC.count_remove (fun x => x == e)
    rw [hl.2.1] at h1 h2
    simp only [List.map_nil, List.countP_nil, Nat.zero_add] at h1 h2
    have e1 : Callback.isFadeOf (fun x => x == e) = fun c => c == Callback.fade e :=
      funext (isFadeOf_eq e)
    have e2 : Callback.isRemoveOf (fun x => x == e) = fun c => c == Callback.remove e :=
      funext (isRemoveOf_eq e)
    rw [e1] at h1 h2
    rw [e2] at h2
    have h3 : (querySelectorAll "alert" doc).countP (fun x => x == e)
        = (querySelectorAll "alert" doc).count e := rfl
    rw [h3] at h1
    exact ⟨h1, h2.trans h1⟩

theorem C9_timer_count_witness :
    (load alerts_js twoAlerts).timers.length = 2 ∧
    (runUntil alerts_js 5300 (load alerts_js twoAlerts)).nextId = 1 + 2 * 2 ∧
    (runUntil alerts_js 5300 (load alerts_js twoAlerts)).fired.length = 2 * 2 :=
  ⟨(C9_timer_count alerts_js twoAlerts).1,
    ((C9_timer_count alerts_js twoAlerts).2.2.2.2.2 5300 (by decide)).1,
    ((C9_timer_count alerts_js twoAlerts).2.2.2.2.2 5300 (by decide)).2.2.1⟩

theorem Forest.find?_mem_elems (x : Nat) (p : Forest) (el : Element)
    (h : p.find? x = some el) : el ∈ p.elems := by
  induction p with
  | nil => simp [Forest.find?] at h
  | node a ch nx ihc ihn =>
    simp only [Forest.find?] at h
    simp only [Forest.elems, List.mem_cons, List.mem_append]
    by_cases ha : a.id = x
    · rw [if_pos ha] at h
      exact Or.inl (Option.some.inj h).symm
    · rw [if_neg ha] at h
      cases hc : Forest.find? x ch with
      | some y =>
        simp only [hc] at h
        exact Or.inr (Or.inl (ihc (by rw [hc, h])))
      | none =>
        simp only [hc] at h
        exact Or.inr (Or.inr (ihn h))

theorem Forest.elems_remove_subset (e : Nat) (p : Forest) :
    ∀ el ∈ (p.remove e).elems, el ∈ p.elems := by
  induction p with
  | nil => simp [Forest.remove, Forest.elems]
  | node a ch nx ihc ihn =>
    intro el hel
    simp only [Forest.elems, List.mem_cons, List.mem_append]
    by_cases ha : a.id = e
    · rw [Forest.remove_node_eq e _ _ _ ha] at hel
      exact Or.inr (Or.inr (ihn el hel))
    · rw [Forest.remove_node_ne e _ _ _ ha] at hel
      simp only [Forest.elems, List.mem_cons, List.mem_append] at hel
      rcases hel with h | h | h
      · exact Or.inl h
      · exact Or.inr (Or.inl (ihc el h))
      · exact Or.inr (Or.inr (ihn el h))

theorem elems_removeAll_subset (es : List Nat) (p : Forest) :
    ∀ el ∈ (removeAll es p).elems, el ∈ p.elems := by
  induction es generalizing p with
  | nil => exact fun _ h => h
  | cons e es ih =>
    intro el hel
    exact Forest.elems_remove_subset e p el (ih (p.remove e) el hel)

theorem observe_congr (k₁ k₂ : Technique) (x : Nat) (p : Forest)
    (h : ∀ el ∈ p.elems, isFaded k₁ el = isFaded k₂ el) : observe k₁ x p = observe k₂ x p := by
  unfold observe
  cases hf : p.find? x with
  | none => rfl
  | some el =>
    simp only
    rw [h el (Forest.find?_mem_elems x p el hf)]

theorem observe_fadeAll (k₁ k₂ : Technique) (S : List Nat) (x : Nat) (p : Forest)
    (h : ∀ el ∈ p.elems, isFaded k₁ el = isFaded k₂ el) :
    observe k₁ x (fadeAll k₁ S p) = observe k₂ x (fadeAll k₂ S p) := by
  by_cases hx : x ∈ S
  · by_cases hp : x ∈ p.ids
    · rw [observe_fading _ _ _ (find?_fadeAll_of_mem k₁ S x hx p hp),
        observe_fading _ _ _ (find?_fadeAll_of_mem k₂ S x hx p hp)]
    · have h1 : x ∉ (fadeAll k₁ S p).ids := by rw [ids_fadeAll]; exact hp
      have h2 : x ∉ (fadeAll k₂ S p).ids := by rw [ids_fadeAll]; exact hp
      rw [(observe_removed _ _ _).mpr h1, (observe_removed _ _ _).mpr h2]
  · unfold observe
    rw [find?_fadeAll_of_not_mem k₁ S x hx, find?_fadeAll_of_not_mem k₂ S x hx]
    exact observe_congr k₁ k₂ x p h

/-- Two scripts agree at time `t` on a page on which their fade marks agree, as
long as `t` is on the same side of both removal times. -/
theorem agreeAt_of_same_side (doc : Forest) (σ₁ σ₂ : Script)
    (hdoc : ∀ el ∈ doc.elems, isFaded σ₁.technique el = isFaded σ₂.technique el)
    (t : Nat) (ht : t < 5000 + σ₁.fadeMs ↔ t < 5000 + σ₂.fadeMs) :
    agreeAt σ₁ σ₂ doc t := by
  have hl₁ := load_timers σ₁ doc
  have hl₂ := load_timers σ₂ doc
  have hn₁ : (load σ₁ doc).now ≤ 5000 := by rw [load_now]; exact Nat.zero_le _
  have hn₂ : (load σ₂ doc).now ≤ 5000 := by rw [load_now]; exact Nat.zero_le _
  unfold agreeAt
  by_cases h1 : t < 5000
  · rw [(traj_early σ₁ 5000 1 t _ _ hl₁ h1).1, (traj_early σ₂ 5000 1 t _ _ hl₂ h1).1,
      load_page, load_page]
    exact ⟨rfl, fun x => observe_congr _ _ x doc hdoc⟩
  · by_cases h2 : t < 5000 + σ₁.fadeMs
    · rw [(traj_mid σ₁ 5000 1 t _ _ hl₁ hn₁ (by omega) h2).1,
        (traj_mid σ₂ 5000 1 t _ _ hl₂ hn₂ (by omega) (ht.mp h2)).1, load_page, load_page]
      exact ⟨by rw [ids_fadeAll, ids_fadeAll], fun x => observe_fadeAll _ _ _ x doc hdoc⟩
    · have h2' : ¬ t < 5000 + σ₂.fadeMs := fun hh => h2 (ht.mpr hh)
      rw [(traj_late σ₁ 5000 1 t _ _ hl₁ hn₁ (by omega)).1,
        (traj_late σ₂ 5000 1 t _ _ hl₂ hn₂ (by omega)).1, load_page, load_page,
        removeAll_fadeAll _ _ _ (fun _ h => h), removeAll_fadeAll _ _ _ (fun _ h => h)]
      refine ⟨rfl, fun x => observe_congr _ _ x _ ?_⟩
      intro el hel
      exact hdoc el (elems_removeAll_subset _ doc el hel)

/-- Claim C10 as stated, refuted. On the page `fadedParagraph`, whose only element
carries the class `fade-out` from the start, at time 0 (outside the interval from
5300 to 5500 ms) the run of `alerts_js` shows the element fading and the run of
`main_js` shows it visible, with the actual fade durations and also when `main_js`
is given the fade duration of `alerts_js`. -/
theorem C10_counterexample :
    observe main_js.technique 7 (runUntil main_js 0 (load main_js fadedParagraph)).page
      = .visible ∧
    observe alerts_js.technique 7 (runUntil alerts_js 0 (load alerts_js fadedParagraph)).page
      = .fading ∧
    ¬ agreeAt main_js alerts_js fadedParagraph 0 ∧
    ¬ agreeAt { main_js with fadeMs := alerts_js.fadeMs } alerts_js fadedParagraph 0 := by
  refine ⟨by decide, by decide, ?_, ?_⟩
  · intro h
    exact absurd (h.2 7) (by decide)
  · intro h
    exact absurd (h.2 7) (by decide)

/-- Claim C10 as amended. On a page on which no element carries the fade mark of one
technique without the fade mark of the other (inline opacity `0` with transition
`opacity 0.5s`, class `fade-out`), with timers firing when due: an inline-style
script and a class-toggle script with the same fade duration `d` agree at every
time `t` (same elements in the page, same observed state of every element), and
`main_js` and `alerts_js` with their own durations agree at every time outside the
interval from 5300 to 5500 ms. -/
theorem C10_variants_agree (doc : Forest)
    (hdoc : ∀ el ∈ doc.elems, isFaded .inlineStyle el = isFaded .classToggle el) (t : Nat) :
    (∀ (b₁ b₂ : Option String) (d : Nat),
      agreeAt { banner := b₁, technique := .inlineStyle, fadeMs := d }
        { banner := b₂, technique := .classToggle, fadeMs := d } doc t) ∧
    (t < 5300 ∨ 5500 ≤ t → agreeAt main_js alerts_js doc t) := by
  refine ⟨?_, ?_⟩
  · intro b₁ b₂ d
    exact agreeAt_of_same_side doc _ _ hdoc t Iff.rfl
  · intro ht
    apply agreeAt_of_same_side doc main_js alerts_js hdoc t
    show t < 5000 + 500 ↔ t < 5000 + 300
    omega

theorem C10_variants_agree_witness :
    (∀ el ∈ alertWithButton.elems, isFaded .inlineStyle el = isFaded .classToggle el) ∧
    agreeAt main_js alerts_js alertWithButton 5299 :=
  ⟨by decide, (C10_variants_agree alertWithButton (by decide) 5299).2 (by decide)⟩

end AOA
